import Mathlib

/-!
Verification development for the dynamic spreadsheet-to-graph ingestion
pipeline of `ingest/neo4j_loader_dynamic.py` (employee-knowledge-chatbot).

The Python source is shallowly embedded:
* spreadsheet cells are `Option String` (`none` models `None`/`NaN`; the
  loader reads the sheet with `dtype=str`, so all present cells are strings);
* Neo4j nodes are property maps (`List (String × String)`) with a label and a
  stable numeric identity; setting a property to `NULL` removes it, matching
  Cypher `SET` semantics;
* each Cypher batch phase is a fold over the record list, mirroring `UNWIND`'s
  row-at-a-time pipeline in which later rows observe earlier writes;
* dates are carried as their ISO `YYYY-MM-DD` strings (Cypher `date(s)` of an
  ISO string round-trips to the same string).
-/

set_option maxHeartbeats 1000000

namespace EmpKB

/-! ## Property maps (Neo4j node/relationship property bags) -/

/-- A property bag: insertion-ordered association list, one entry per key. -/
abbrev PropMap := List (String × String)

/-- First-occurrence lookup, `none` when the key is absent. -/
def getP : PropMap → String → Option String
  | [], _ => none
  | (k', v) :: rest, k => if k' = k then some v else getP rest k

/-- Overwrite the first occurrence of a key in place, appending when absent. -/
def setPv : PropMap → String → String → PropMap
  | [], k, v => [(k, v)]
  | (k', v') :: rest, k, v =>
    if k' = k then (k', v) :: rest else (k', v') :: setPv rest k v

/-- Remove every occurrence of a key. -/
def remP : PropMap → String → PropMap
  | [], _ => []
  | (k', v) :: rest, k =>
    if k' = k then remP rest k else (k', v) :: remP rest k

/-- Cypher `SET n.k = x`: a null right-hand side removes the property. -/
def setP (ps : PropMap) (k : String) : Option String → PropMap
  | none => remP ps k
  | some v => setPv ps k v

theorem getP_setPv (ps : PropMap) (k v k' : String) :
    getP (setPv ps k v) k' = if k' = k then some v else getP ps k' := by
  induction ps with
  | nil =>
    by_cases h : k' = k
    · simp [setPv, getP, h]
    · have h' : ¬ k = k' := fun e => h e.symm
      simp [setPv, getP, h, h']
  | cons kv rest ih =>
    obtain ⟨k1, v1⟩ := kv
    by_cases h1 : k1 = k
    · subst h1
      by_cases h2 : k' = k1
      · subst h2; simp [setPv, getP]
      · have h2' : ¬ k1 = k' := fun e => h2 e.symm
        simp [setPv, getP, h2, h2']
    · by_cases h2 : k' = k1
      · subst h2
        have h1' : ¬ k' = k := fun e => h1 e
        simp [setPv, getP, h1, h1']
      · have h2' : ¬ k1 = k' := fun e => h2 e.symm
        simp [setPv, getP, h1, h2, h2', ih]

theorem getP_remP (ps : PropMap) (k k' : String) :
    getP (remP ps k) k' = if k' = k then none else getP ps k' := by
  induction ps with
  | nil => simp [remP, getP]
  | cons kv rest ih =>
    obtain ⟨k1, v1⟩ := kv
    by_cases h1 : k1 = k
    · subst h1
      by_cases h2 : k' = k1
      · subst h2; simp [remP, getP, ih]
      · have h2' : ¬ k1 = k' := fun e => h2 e.symm
        simp [remP, getP, h2, h2', ih]
    · by_cases h2 : k' = k1
      · subst h2
        have h1' : ¬ k' = k := fun e => h1 e
        simp [remP, getP, h1, h1', ih]
      · have h2' : ¬ k1 = k' := fun e => h2 e.symm
        simp [remP, getP, h1, h2, h2', ih]

theorem getP_setP (ps : PropMap) (k : String) (ov : Option String) (k' : String) :
    getP (setP ps k ov) k' = if k' = k then ov else getP ps k' := by
  cases ov with
  | none => simp [setP, getP_remP]
  | some v => simp [setP, getP_setPv]

/-- Writing back the value already stored is a no-op, list-literally. -/
theorem setPv_self (ps : PropMap) (k v : String)
    (h : getP ps k = some v) : setPv ps k v = ps := by
  induction ps with
  | nil => simp [getP] at h
  | cons kv rest ih =>
    obtain ⟨k1, v1⟩ := kv
    by_cases h1 : k1 = k
    · subst h1
      simp only [getP, if_pos rfl] at h
      cases h
      simp [setPv]
    · simp only [getP, if_neg h1] at h
      simp [setPv, h1, ih h]

/-- Removing an absent key is a no-op, list-literally. -/
theorem remP_absent (ps : PropMap) (k : String)
    (h : getP ps k = none) : remP ps k = ps := by
  induction ps with
  | nil => rfl
  | cons kv rest ih =>
    obtain ⟨k1, v1⟩ := kv
    by_cases h1 : k1 = k
    · simp [getP, h1] at h
    · simp only [getP, if_neg h1] at h
      simp [remP, h1, ih h]

/-- Cypher `SET n.k = n.k` leaves the bag unchanged, list-literally. -/
theorem setP_self (ps : PropMap) (k : String) :
    setP ps k (getP ps k) = ps := by
  cases h : getP ps k with
  | none => simpa [setP] using remP_absent ps k h
  | some v => simpa [setP] using setPv_self ps k v h

/-! ## Field parser: string normalization and flexible date parsing -/

/-- Python `str.strip()` on the character list. -/
def trimChars (cs : List Char) : List Char :=
  ((cs.dropWhile Char.isWhitespace).reverse.dropWhile Char.isWhitespace).reverse

/-- Python `str.strip()`. -/
def pyStrip (s : String) : String := String.mk (trimChars s.toList)

/-- `norm_str`: trimmed non-empty string, else null
    (`neo4j_loader_dynamic.py` lines 28-38; `pd.isna` cells arrive as `none`). -/
def norm_str : Option String → Option String
  | none => none
  | some s => let t := pyStrip s; if t = "" then none else some t

theorem norm_str_ne_empty (x : Option String) (s : String)
    (h : norm_str x = some s) : s ≠ "" := by
  cases x with
  | none => simp [norm_str] at h
  | some s0 =>
    simp only [norm_str] at h
    by_cases he : pyStrip s0 = ""
    · simp [he] at h
    · simp only [if_neg he] at h
      cases h
      exact he

/-- Collapse adjacent duplicates of `x` into one occurrence. -/
def squeezeRuns (x : Char) : List Char → List Char
  | [] => []
  | c :: rest =>
    match squeezeRuns x rest with
    | [] => [c]
    | d :: tail => if c = x && d = x then d :: tail else c :: d :: tail

/-- `norm_col`: strip, collapse whitespace runs to one space
    (`re.sub(r"\s+", " ", c.strip())`, lines 24-26). -/
def norm_col (s : String) : String :=
  String.mk (squeezeRuns ' '
    ((trimChars s.toList).map (fun c => if c.isWhitespace then ' ' else c)))

def isAlnum (c : Char) : Bool := c.isAlpha || c.isDigit

/-- `snake`: drop parentheses, turn runs of non-alphanumerics into single
    underscores, strip edge underscores, lowercase (lines 40-44). -/
def snake (s : String) : String :=
  let t := (trimChars s.toList).filter (fun c => !(c == '(' || c == ')'))
  let u := squeezeRuns '_' (t.map (fun c => if isAlnum c then c else '_'))
  let u := ((u.dropWhile (fun c => c == '_')).reverse.dropWhile (fun c => c == '_')).reverse
  String.mk (u.map Char.toLower)

def isLeap (y : Nat) : Bool := y % 4 == 0 && (y % 100 != 0 || y % 400 == 0)

def daysInMonth (y m : Nat) : Nat :=
  if m = 2 then (if isLeap y then 29 else 28)
  else if m = 4 || m = 6 || m = 9 || m = 11 then 30
  else 31

/-- Python `datetime.date(y, m, d)` succeeds exactly on these triples. -/
def validDMY (y m d : Nat) : Bool :=
  1 ≤ y && y ≤ 9999 && 1 ≤ m && m ≤ 12 && 1 ≤ d && d ≤ daysInMonth y m

def pad2 (n : Nat) : String := if n < 10 then "0" ++ toString n else toString n

def pad4 (n : Nat) : String :=
  if n < 10 then "000" ++ toString n
  else if n < 100 then "00" ++ toString n
  else if n < 1000 then "0" ++ toString n
  else toString n

/-- `date(...).isoformat()`. -/
def isoDate (y m d : Nat) : String := pad4 y ++ "-" ++ pad2 m ++ "-" ++ pad2 d

def digitVal (c : Char) : Nat := c.toNat - '0'.toNat

def digitsToNat (cs : List Char) : Nat := cs.foldl (fun a c => a * 10 + digitVal c) 0

def isDateSep (c : Char) : Bool := c == '/' || c == '-' || c == '.' || c == ' '

/-- Split a character list on date separators (fields may be empty). -/
def splitSep : List Char → List (List Char)
  | [] => [[]]
  | c :: rest =>
    let r := splitSep rest
    if isDateSep c then [] :: r
    else
      match r with
      | [] => [[c]]
      | f :: fs => (c :: f) :: fs

def mkDateIfValid (y m d : Nat) : Option String :=
  if validDMY y m d then some (isoDate y m d) else none

/-- Modelled from the spec: the locale-flexible parse performed by the external
    pandas library (`pd.to_datetime(s, dayfirst=..., errors="coerce")`), which
    is a collaborator outside this repository's sources. Per the spec it is a
    "locale-flexible parse interpreting the string day-first" (respectively
    month-first) that accepts the first attempt yielding a valid calendar
    date. The model parses strings of three numeric fields split by `/ - . `
    with an unambiguous 4-digit year (a leading 4-digit year is ISO and
    ignores the day-first flag, as pandas' ISO fast path does); compact
    digit-only strings such as `"150824"` are not resolved here and fall
    through to the caller's explicit DDMMYY fallback, matching the spec's
    worked examples. -/
def pd_to_datetime (dayfirst : Bool) (s : String) : Option String :=
  match splitSep s.toList with
  | [a, b, c] =>
    if !a.isEmpty && !b.isEmpty && !c.isEmpty && (a ++ b ++ c).all Char.isDigit then
      if a.length = 4 then
        mkDateIfValid (digitsToNat a) (digitsToNat b) (digitsToNat c)
      else if c.length = 4 && a.length ≤ 2 && b.length ≤ 2 then
        if dayfirst then mkDateIfValid (digitsToNat c) (digitsToNat b) (digitsToNat a)
        else mkDateIfValid (digitsToNat c) (digitsToNat a) (digitsToNat b)
      else none
    else none
  | _ => none

/-- `parse_date_flex` (lines 46-83): day-first flexible parse, then
    month-first, then the separator-stripping DDMMYY fallback with the
    two-digit-year window `2000+yy` for `yy ≤ 69`, else `1900+yy`;
    invalid day/month yields null. -/
def parse_date_flex (x : Option String) : Option String :=
  match x with
  | none => none
  | some s0 =>
    let s := pyStrip s0
    if s = "" then none
    else
      match pd_to_datetime true s with
      | some d => some d
      | none =>
        match pd_to_datetime false s with
        | some d => some d
        | none =>
          let s2 := s.toList.filter (fun c => !isDateSep c)
          if s2.length = 6 && s2.all Char.isDigit then
            let dd := digitsToNat (s2.take 2)
            let mm := digitsToNat ((s2.drop 2).take 2)
            let yy := digitsToNat (s2.drop 4)
            let year := if yy ≤ 69 then 2000 + yy else 1900 + yy
            if validDMY year mm dd then some (isoDate year mm dd) else none
          else none

/-! ## Record builder -/

/-- One canonical record, the shape assembled per row in `build_records`. -/
structure Rec where
  empId : Option String := none
  name : Option String := none
  gender : Option String := none
  doj : Option String := none
  designation : Option String := none
  managerName : Option String := none
  leadName : Option String := none
  primarySkill : Option String := none
  secondarySkill : Option String := none
  project : Option String := none
  team : Option String := none
  extra : PropMap := []
deriving DecidableEq, Repr

/-- The alias table `col_map_variants` (lines 94-107), verbatim. -/
def col_map_variants : List (String × List String) :=
  [("emp_id", ["Emp Id", "Emp Id ", "Employee Id", "EmpID"]),
   ("name", ["Emp Name", "Employee Name", "Name"]),
   ("gender", ["Gender"]),
   ("doj", ["Date of Joining (DDMMYY)", "Date of Joining", "DOJ"]),
   ("designation", ["Designation", "Title", "Role"]),
   ("manager_name", ["Reporting Manager", "Manager", "Reports To"]),
   ("lead_name", ["Lead Reporting", "Lead", "Project Lead"]),
   ("primary_skill", ["Primary Skill", "Primary skill"]),
   ("secondary_skill", ["Secondary Skill", "Secondary skill"]),
   ("project", ["Current Project", "Project"]),
   ("team", ["Team", "Department"])]

/-- The inverted header map `inv` (lines 113-116): normalized alias → field. -/
def inv : PropMap :=
  col_map_variants.foldl
    (fun acc kv => kv.2.foldl (fun acc v => setPv acc (norm_col v) kv.1) acc) []

def lowerStr (s : String) : String := String.mk (s.toList.map Char.toLower)

/-- Dispatch one recognized cell onto the record (lines 147-171). -/
def applyField (r : Rec) (key : String) (v : Option String) : Rec :=
  if key = "emp_id" then { r with empId := norm_str v }
  else if key = "name" then { r with name := norm_str v }
  else if key = "gender" then { r with gender := norm_str v }
  else if key = "doj" then { r with doj := parse_date_flex v }
  else if key = "designation" then { r with designation := norm_str v }
  else if key = "manager_name" then { r with managerName := norm_str v }
  else if key = "lead_name" then { r with leadName := norm_str v }
  else if key = "primary_skill" then { r with primarySkill := (norm_str v).map lowerStr }
  else if key = "secondary_skill" then { r with secondarySkill := (norm_str v).map lowerStr }
  else if key = "project" then { r with project := norm_str v }
  else if key = "team" then { r with team := norm_str v }
  else r

/-- One iteration of the per-row column loop (lines 141-171). Headers not in
    `inv` go to `extra` under their snake-cased key when the cell is non-null.
    Note that the source computes a `passthrough_cols`/`ignore_cols` pair at
    lines 121-123 but never consults it in this loop, so no header is
    exempted here. -/
def build_step (r : Rec) (cv : String × Option String) : Rec :=
  match getP inv (norm_col cv.1) with
  | none =>
    match norm_str cv.2 with
    | some val => { r with extra := setPv r.extra (snake cv.1) val }
    | none => r
  | some key => applyField r key cv.2

/-- Build one record from a row's (header, cell) pairs (lines 125-171). -/
def build_row (cells : List (String × Option String)) : Rec :=
  cells.foldl build_step {}

/-- Python truthiness of an optional string (`if rec["empId"] and rec["name"]`). -/
def pyTruthy : Option String → Bool
  | none => false
  | some s => !(s == "")

/-- `build_records` (lines 89-177): normalize headers once at the dataframe
    level, build one record per row, and keep only rows whose `empId` and
    `name` are truthy. -/
def build_records (cols : List String) (rows : List (List (Option String))) : List Rec :=
  let ncols := cols.map norm_col
  (rows.map (fun row => build_row (ncols.zip row))).filter
    (fun r => pyTruthy r.empId && pyTruthy r.name)

/-! ### Record builder facts -/

/-- An optional string that can never be `some ""`. -/
def NoEmpty (o : Option String) : Prop := ∀ s, o = some s → s ≠ ""

theorem norm_str_noEmpty (v : Option String) : NoEmpty (norm_str v) :=
  fun s h => norm_str_ne_empty v s h

theorem getP_val_mem (ps : PropMap) (x v : String) (h : getP ps x = some v) :
    v ∈ ps.map Prod.snd := by
  induction ps with
  | nil => simp [getP] at h
  | cons kv rest ih =>
    obtain ⟨k1, v1⟩ := kv
    by_cases h1 : k1 = x
    · simp only [getP, if_pos h1] at h
      cases h
      simp
    · simp only [getP, if_neg h1] at h
      simpa using Or.inr (ih h)

/-- Every canonical field tag stored in `inv` is one of the eleven keys. -/
theorem inv_key_cases (x key : String) (h : getP inv x = some key) :
    key = "emp_id" ∨ key = "name" ∨ key = "gender" ∨ key = "doj" ∨
    key = "designation" ∨ key = "manager_name" ∨ key = "lead_name" ∨
    key = "primary_skill" ∨ key = "secondary_skill" ∨ key = "project" ∨
    key = "team" := by
  have hmem := getP_val_mem inv x key h
  have hv : inv.map Prod.snd =
      ["emp_id", "emp_id", "emp_id", "name", "name", "name", "gender",
       "doj", "doj", "doj", "designation", "designation", "designation",
       "manager_name", "manager_name", "manager_name",
       "lead_name", "lead_name", "lead_name",
       "primary_skill", "primary_skill", "secondary_skill", "secondary_skill",
       "project", "project", "team", "team"] := by decide
  rw [hv] at hmem
  simpa using hmem

theorem build_step_noEmpty (r : Rec) (cv : String × Option String)
    (he : NoEmpty r.empId) (hn : NoEmpty r.name) :
    NoEmpty (build_step r cv).empId ∧ NoEmpty (build_step r cv).name := by
  unfold build_step
  cases hk : getP inv (norm_col cv.1) with
  | none =>
    cases hv : norm_str cv.2 with
    | none => exact ⟨he, hn⟩
    | some val => exact ⟨he, hn⟩
  | some key =>
    rcases inv_key_cases _ _ hk with h|h|h|h|h|h|h|h|h|h|h <;> subst h <;>
      simp only [applyField, reduceIte] <;>
      first
        | exact ⟨norm_str_noEmpty _, hn⟩
        | exact ⟨he, norm_str_noEmpty _⟩
        | exact ⟨he, hn⟩

theorem build_row_noEmpty (cells : List (String × Option String)) :
    NoEmpty (build_row cells).empId ∧ NoEmpty (build_row cells).name := by
  unfold build_row
  generalize hinit : ({} : Rec) = r0
  have h0 : NoEmpty r0.empId ∧ NoEmpty r0.name := by
    subst hinit
    constructor <;> intro s h <;> simp at h
  clear hinit
  induction cells generalizing r0 with
  | nil => simpa using h0
  | cons cv rest ih =>
    simp only [List.foldl_cons]
    exact ih _ (build_step_noEmpty r0 cv h0.1 h0.2)

/-- CLAIM C2 — For every input row, `build_records` keeps the built record
    exactly when both the id and the name field are non-null after string
    normalization; all other rows are dropped from the output list. -/
theorem build_records_validity_gate (cols : List String) (rows : List (List (Option String))) :
    build_records cols rows =
      (rows.map (fun row => build_row ((cols.map norm_col).zip row))).filter
        (fun r => r.empId.isSome && r.name.isSome) := by
  unfold build_records
  apply List.filter_congr
  intro r hr
  simp only [List.mem_map] at hr
  obtain ⟨row, _, hrow⟩ := hr
  have hne : NoEmpty r.empId ∧ NoEmpty r.name := by
    rw [← hrow]; exact build_row_noEmpty _
  congr 1
  · cases he : r.empId with
    | none => simp [pyTruthy]
    | some s =>
      have : s ≠ "" := hne.1 s he
      simp [pyTruthy, this]
  · cases hn : r.name with
    | none => simp [pyTruthy]
    | some s =>
      have : s ≠ "" := hne.2 s hn
      simp [pyTruthy, this]

/-- CLAIM C3 — `parse_date_flex` behaves as specified on the spec's worked
    examples: `"150824"` parses through the DDMMYY fallback to `2024-08-15`,
    ISO `"1987-05-02"` parses day-first to itself, the empty string is null,
    the two-digit-year window maps `70 ↦ 1970` and `69 ↦ 2069`, and
    out-of-range day (`"320124"`) or month (`"311324"`) yields null. -/
theorem parse_date_flex_examples :
    parse_date_flex (some "150824") = some "2024-08-15" ∧
    parse_date_flex (some "1987-05-02") = some "1987-05-02" ∧
    parse_date_flex (some "") = none ∧
    parse_date_flex (some "010170") = some "1970-01-01" ∧
    parse_date_flex (some "010169") = some "2069-01-01" ∧
    parse_date_flex (some "320124") = none ∧
    parse_date_flex (some "311324") = none := by
  refine ⟨?_, ?_, ?_, ?_, ?_, ?_, ?_⟩ <;> decide

/-- CLAIM C8 (code evidence) — a `"Sr No"` column, although listed in the
    source's `ignore_cols` blocklist, still lands in the record's `extra`
    mapping: the blocklist is computed (lines 121-123) but never consulted by
    the row loop (lines 141-146). -/
theorem srno_lands_in_extra :
    (build_records ["Emp Id", "Emp Name", "Sr No"]
        [[some "E1", some "Alice", some "7"]]).map (fun r => r.extra) =
      [[("sr_no", "7")]] := by
  decide

/-! ## Graph store model -/

inductive NLabel
  | employee
  | skill
  | project
  | team
deriving DecidableEq, Repr

/-- A node: stable internal identity, label, property bag. -/
structure GNode where
  nid : Nat
  label : NLabel
  props : PropMap
deriving DecidableEq, Repr

inductive EType
  | reportsTo
  | leadReporting
  | hasSkill
  | worksOn
  | worksIn
deriving DecidableEq, Repr

/-- A relationship between two node identities, with its property bag. -/
structure GEdge where
  src : Nat
  dst : Nat
  typ : EType
  props : PropMap
deriving DecidableEq, Repr

structure GraphState where
  nodes : List GNode
  edges : List GEdge
  nextId : Nat
deriving DecidableEq, Repr

def emptyG : GraphState := ⟨[], [], 0⟩

/-- `(n:Employee {empId: eid})` pattern. -/
def isEmpWithId (eid : String) (n : GNode) : Bool :=
  n.label == NLabel.employee && getP n.props "empId" == some eid

/-- `(n:Lbl {name: nm})` pattern. -/
def isLabeledNamed (lb : NLabel) (nm : String) (n : GNode) : Bool :=
  n.label == lb && getP n.props "name" == some nm

/-- Cypher `coalesce` on two nullable strings. -/
def coalesce (a b : Option String) : Option String :=
  match a with
  | some v => some v
  | none => b

/-- Cypher `e += map` (map values here are always non-null strings). -/
def mergeExtra (ps ex : PropMap) : PropMap :=
  ex.foldl (fun acc kv => setPv acc kv.1 kv.2) ps

/-! ### Phase 1: Employee core (lines 210-219)

`MERGE (e:Employee {empId:r.empId}) ON CREATE SET e.name = r.name
 ON MATCH SET e.name = coalesce(r.name, e.name)
 SET e.gender = r.gender, e.designation = r.designation,
     e.doj = CASE WHEN r.doj IS NULL THEN e.doj ELSE date(r.doj) END,
     e += r.extra` -/

/-- The trailing `SET` clause shared by both MERGE branches, then `+= extra`. -/
def setCore (r : Rec) (ps : PropMap) : PropMap :=
  let ps2 := setP ps "gender" r.gender
  let ps3 := setP ps2 "designation" r.designation
  let ps4 := setP ps3 "doj"
    (match r.doj with
     | none => getP ps3 "doj"
     | some d => some d)
  mergeExtra ps4 r.extra

/-- ON MATCH branch: coalesce the name, then the shared `SET`. -/
def updMatch (r : Rec) (ps : PropMap) : PropMap :=
  setCore r (setP ps "name" (coalesce r.name (getP ps "name")))

/-- ON CREATE branch: node seeded from the merge pattern, plain name set,
    then the shared `SET`. -/
def createProps (r : Rec) (eid : String) : PropMap :=
  setCore r (setP [("empId", eid)] "name" r.name)

/-- The ON MATCH update applied to the nodes bound by the phase-1 `MERGE`. -/
def upd1 (r : Rec) (eid : String) (n : GNode) : GNode :=
  if isEmpWithId eid n then { n with props := updMatch r n.props } else n

/-- One `UNWIND` row of phase 1. A null `r.empId` would make the Cypher
    `MERGE` fail the batch; records reaching `upsert` always carry one, and
    the model treats that impossible row as a no-op. -/
def step1 (g : GraphState) (r : Rec) : GraphState :=
  match r.empId with
  | none => g
  | some eid =>
    if g.nodes.any (isEmpWithId eid) then
      { g with nodes := g.nodes.map (upd1 r eid) }
    else
      { g with
          nodes := g.nodes ++ [⟨g.nextId, NLabel.employee, createProps r eid⟩],
          nextId := g.nextId + 1 }

def phase1 (g : GraphState) (rs : List Rec) : GraphState := rs.foldl step1 g

/-! ### Relationship merges -/

def edgeExists (g : GraphState) (s d : Nat) (t : EType) : Bool :=
  g.edges.any (fun e => e.src == s && e.dst == d && e.typ == t)

/-- `MERGE (a)-[:T]->(b)` with a property-free pattern. -/
def mergeEdge (g : GraphState) (s d : Nat) (t : EType) : GraphState :=
  if edgeExists g s d t then g
  else { g with edges := g.edges ++ [⟨s, d, t, []⟩] }

def skillEdgeExists (g : GraphState) (s d : Nat) (ty : String) : Bool :=
  g.edges.any (fun e =>
    e.src == s && e.dst == d && e.typ == EType.hasSkill && getP e.props "type" == some ty)

/-- `MERGE (e)-[:HAS_SKILL {type:ty}]->(s)`. -/
def mergeSkillEdge (g : GraphState) (s d : Nat) (ty : String) : GraphState :=
  if skillEdgeExists g s d ty then g
  else { g with edges := g.edges ++ [⟨s, d, EType.hasSkill, [("type", ty)]⟩] }

/-- `MATCH (e:Employee {empId:eid})` row set. -/
def empMatches (g : GraphState) (eid : String) : List GNode :=
  g.nodes.filter (isEmpWithId eid)

/-- `MERGE (x:Lbl {name:nm}) [ON CREATE SET ...]` followed by a relationship
    merge from `src` to every bound target: the shared shape of the team,
    manager, lead, skill and project blocks of the Cypher. `cprops` is the
    property map of a created node; `link` merges the relationship. -/
def ensureLink (lb : NLabel) (nm : String) (cprops : PropMap)
    (link : GraphState → Nat → Nat → GraphState) (h : GraphState) (src : Nat) : GraphState :=
  let ms := h.nodes.filter (isLabeledNamed lb nm)
  if ms.isEmpty then
    let h1 := { h with nodes := h.nodes ++ [⟨h.nextId, lb, cprops⟩], nextId := h.nextId + 1 }
    link h1 src h.nextId
  else
    ms.foldl (fun h2 mn => link h2 src mn.nid) h

/-! ### Phase 2: Team link (lines 222-228) -/

/-- One employee row of phase 2: merge the team node, link `WORKS_IN`. -/
def teamLinkBody (t : String) (h : GraphState) (e : GNode) : GraphState :=
  ensureLink NLabel.team t [("name", t)]
    (fun h2 s d => mergeEdge h2 s d EType.worksIn) h e.nid

def step2 (g : GraphState) (r : Rec) : GraphState :=
  match r.empId, r.team with
  | some eid, some t =>
    if t = "" then g
    else (empMatches g eid).foldl (teamLinkBody t) g
  | _, _ => g

def phase2 (g : GraphState) (rs : List Rec) : GraphState := rs.foldl step2 g

/-! ### Phase 3: Manager / Lead edges with stub creation (lines 231-250) -/

def stubManagerId (eid m : String) : String := "stub::manager::" ++ eid ++ "::" ++ m

def stubLeadId (eid m : String) : String := "stub::lead::" ++ eid ++ "::" ++ m

/-- One employee row of phase 3: `MERGE (t:Employee {name:m}) ON CREATE SET
    t.empId = sid`, then merge the typed edge from the employee to every bound
    target. -/
def refFoldBody (ety : EType) (m sid : String) (h : GraphState) (e : GNode) : GraphState :=
  ensureLink NLabel.employee m [("name", m), ("empId", sid)]
    (fun h2 s d => mergeEdge h2 s d ety) h e.nid

/-- Shared shape of the manager and lead phases: per matched employee row,
    merge the named target (creating a stub with the synthetic id when
    absent), then merge the typed edge. -/
def stepRef (mk : String → String → String) (ety : EType) (refOf : Rec → Option String)
    (g : GraphState) (r : Rec) : GraphState :=
  match r.empId, refOf r with
  | some eid, some m =>
    if m = "" then g
    else (empMatches g eid).foldl (refFoldBody ety m (mk eid m)) g
  | _, _ => g

def step3M : GraphState → Rec → GraphState :=
  stepRef stubManagerId EType.reportsTo (fun r => r.managerName)

def step3L : GraphState → Rec → GraphState :=
  stepRef stubLeadId EType.leadReporting (fun r => r.leadName)

def phase3M (g : GraphState) (rs : List Rec) : GraphState := rs.foldl step3M g

def phase3L (g : GraphState) (rs : List Rec) : GraphState := rs.foldl step3L g

/-! ### Phase 4: Skills (lines 253-264) -/

def mergeSkillFor (g : GraphState) (enid : Nat) (p ty : String) : GraphState :=
  ensureLink NLabel.skill p [("name", p)]
    (fun h2 s d => mergeSkillEdge h2 s d ty) g enid

/-- One employee row of phase 4: the two skill `FOREACH` blocks. -/
def skillBody (ps qs : Option String) (h : GraphState) (e : GNode) : GraphState :=
  let h1 :=
    match ps with
    | some p => mergeSkillFor h e.nid p "primary"
    | none => h
  match qs with
  | some q => mergeSkillFor h1 e.nid q "secondary"
  | none => h1

def step4 (g : GraphState) (r : Rec) : GraphState :=
  match r.empId with
  | some eid => (empMatches g eid).foldl (skillBody r.primarySkill r.secondarySkill) g
  | none => g

def phase4 (g : GraphState) (rs : List Rec) : GraphState := rs.foldl step4 g

/-! ### Phase 5: Projects and WORKS_ON.since (lines 267-274) -/

/-- `MERGE (e)-[w:WORKS_ON]->(p)` then
    `SET w.since = coalesce(w.since, CASE WHEN r.doj IS NULL THEN NULL ELSE date(r.doj) END)`. -/
def worksOnUpd (g : GraphState) (s d : Nat) (x : Option String) : GraphState :=
  if g.edges.any (fun e => e.src == s && e.dst == d && e.typ == EType.worksOn) then
    { g with edges := g.edges.map (fun e =>
        if e.src == s && e.dst == d && e.typ == EType.worksOn then
          { e with props := setP e.props "since" (coalesce (getP e.props "since") x) }
        else e) }
  else
    { g with edges := g.edges ++ [⟨s, d, EType.worksOn, setP [] "since" x⟩] }

/-- One employee row of phase 5: merge the project node, merge and
    coalesce-update the `WORKS_ON` edge. -/
def projLinkBody (x : Option String) (p : String) (h : GraphState) (e : GNode) : GraphState :=
  ensureLink NLabel.project p [("name", p)]
    (fun h2 s d => worksOnUpd h2 s d x) h e.nid

def step5 (g : GraphState) (r : Rec) : GraphState :=
  match r.empId, r.project with
  | some eid, some p =>
    if p = "" then g
    else (empMatches g eid).foldl (projLinkBody r.doj p) g
  | _, _ => g

def phase5 (g : GraphState) (rs : List Rec) : GraphState := rs.foldl step5 g

/-- `upsert` (lines 195-274): early return on an empty batch, else the five
    ordered batch phases. Constraint/index setup statements only declare
    uniqueness and indexes; they do not change graph contents and are not
    modelled. -/
def upsert (g : GraphState) (rs : List Rec) : GraphState :=
  if rs.isEmpty then g
  else phase5 (phase4 (phase3L (phase3M (phase2 (phase1 g rs) rs) rs) rs) rs) rs

/-! ## Main-flow model -/

inductive RunOutcome
  | emptyNoop
  | imported (count : Nat)
deriving DecidableEq, Repr

/-- The tail of `main` (lines 301-314): zero valid records short-circuits with
    an informational message before any store connection; otherwise the batch
    is upserted and the record count reported. -/
def runPipeline (g : GraphState) (records : List Rec) : RunOutcome × GraphState :=
  if records.isEmpty then (RunOutcome.emptyNoop, g)
  else (RunOutcome.imported records.length, upsert g records)

/-- `sys.exit(0)` on the empty branch (line 305); normal completion also
    exits 0. -/
def exitCodeOf : RunOutcome → Nat
  | RunOutcome.emptyNoop => 0
  | RunOutcome.imported _ => 0

/-- CLAIM C9 — zero valid records is a legitimate no-op: the run reports the
    empty outcome with exit code 0 and the store is untouched; likewise
    `upsert` itself returns before any store operation on an empty list. -/
theorem empty_batch_noop (g : GraphState) :
    runPipeline g [] = (RunOutcome.emptyNoop, g) ∧
    exitCodeOf (runPipeline g []).1 = 0 ∧
    upsert g [] = g := by
  refine ⟨rfl, rfl, rfl⟩

/-- CLAIM C10 — a passthrough header `"name"` (not matching the
    case-sensitive alias list, whose name aliases are `"Emp Name"`,
    `"Employee Name"`, `"Name"`) derives the extra key `"name"`; phase 1's
    `e += r.extra` then overwrites the canonical `name` property: the built
    record's own name field is `"Alice"`, yet the stored node ends up named
    `"Evil"`, bypassing the name-coalesce rule. -/
theorem extra_overwrites_canonical_name :
    (build_records ["Emp Id", "Emp Name", "name"]
        [[some "E1", some "Alice", some "Evil"]]).map (fun r => r.name) = [some "Alice"] ∧
    (upsert emptyG
        (build_records ["Emp Id", "Emp Name", "name"]
          [[some "E1", some "Alice", some "Evil"]])).nodes.map
        (fun n => getP n.props "name") = [some "Evil"] := by
  refine ⟨by decide, by decide⟩

/-! ## Lookup characterization of the phase-1 property update -/

/-- Last-writer-wins lookup in an `extra` map (`+=` applies entries in order,
    later entries overwriting earlier ones). -/
def lastVal : PropMap → String → Option String
  | [], _ => none
  | kv :: rest, k =>
    match lastVal rest k with
    | some v => some v
    | none => if kv.1 = k then some kv.2 else none

theorem getP_mergeExtra (ps ex : PropMap) (k : String) :
    getP (mergeExtra ps ex) k =
      match lastVal ex k with
      | some v => some v
      | none => getP ps k := by
  induction ex generalizing ps with
  | nil => simp [mergeExtra, lastVal]
  | cons kv rest ih =>
    obtain ⟨k1, v1⟩ := kv
    have hstep : mergeExtra ps ((k1, v1) :: rest) = mergeExtra (setPv ps k1 v1) rest := rfl
    rw [hstep, ih]
    cases hl : lastVal rest k with
    | some v => simp [lastVal, hl]
    | none =>
      simp only [lastVal, hl]
      by_cases hk : k1 = k
      · subst hk
        simp [getP_setPv]
      · have hk' : ¬ k = k1 := fun e => hk e.symm
        simp [getP_setPv, hk, hk']

theorem lastVal_eq_none (ex : PropMap) (k : String) (h : ∀ kv ∈ ex, kv.1 ≠ k) :
    lastVal ex k = none := by
  induction ex with
  | nil => rfl
  | cons kv rest ih =>
    have hrest := ih (fun kv2 h2 => h kv2 (List.mem_cons_of_mem _ h2))
    have hkv : kv.1 ≠ k := h kv (List.mem_cons_self _ _)
    simp [lastVal, hrest, hkv]

/-- Per-key action of the ON MATCH update of phase 1: the stored value of key
    `k` after the update, as a function of the value before. -/
def phiR (r : Rec) (k : String) (x : Option String) : Option String :=
  match lastVal r.extra k with
  | some v => some v
  | none =>
    if k = "doj" then
      match r.doj with
      | some d => some d
      | none => x
    else if k = "designation" then r.designation
    else if k = "gender" then r.gender
    else if k = "name" then coalesce r.name x
    else x

/-- Per-key value of a phase-1 created node. -/
def phiC (r : Rec) (eid k : String) : Option String :=
  match lastVal r.extra k with
  | some v => some v
  | none =>
    if k = "doj" then r.doj
    else if k = "designation" then r.designation
    else if k = "gender" then r.gender
    else if k = "name" then r.name
    else if k = "empId" then some eid
    else none

theorem updMatch_getP (r : Rec) (ps : PropMap) (k : String) :
    getP (updMatch r ps) k = phiR r k (getP ps k) := by
  unfold updMatch setCore phiR
  rw [getP_mergeExtra]
  cases lastVal r.extra k with
  | some v => rfl
  | none =>
    by_cases h1 : k = "doj"
    · subst h1
      cases r.doj with
      | none => simp [getP_setP]
      | some d => simp [getP_setP]
    · by_cases h2 : k = "designation"
      · subst h2; simp [getP_setP]
      · by_cases h3 : k = "gender"
        · subst h3; simp [getP_setP]
        · by_cases h4 : k = "name"
          · subst h4; simp [getP_setP]
          · simp [getP_setP, h1, h2, h3, h4]

theorem createProps_getP (r : Rec) (eid k : String) :
    getP (createProps r eid) k = phiC r eid k := by
  unfold createProps setCore phiC
  rw [getP_mergeExtra]
  cases lastVal r.extra k with
  | some v => rfl
  | none =>
    by_cases h1 : k = "doj"
    · subst h1
      cases r.doj with
      | none => simp [getP_setP, getP]
      | some d => simp [getP_setP]
    · by_cases h2 : k = "designation"
      · subst h2; simp [getP_setP]
      · by_cases h3 : k = "gender"
        · subst h3; simp [getP_setP]
        · by_cases h4 : k = "name"
          · subst h4; simp [getP_setP]
          · by_cases h5 : k = "empId"
            · subst h5; simp [getP_setP, getP, h1, h2, h3, h4]
            · have h5' : ¬ "empId" = k := fun e => h5 e.symm
              simp [getP_setP, getP, h1, h2, h3, h4, h5, h5']

/-- CLAIM C5 (counterexample) — re-ingesting employee `E1` with a null
    `date_of_joining` leaves the stored `doj` untouched (`2020-01-01`); the
    claim as stated says all three of gender/designation/doj are overwritten
    unconditionally, which would null it out. The `CASE WHEN r.doj IS NULL
    THEN e.doj ...` in phase 1 preserves it instead. -/
theorem doj_not_overwritten_by_null :
    (phase1
        ⟨[⟨0, NLabel.employee, [("empId", "E1"), ("name", "Old"), ("doj", "2020-01-01")]⟩], [], 1⟩
        [{ empId := some "E1", name := some "Alice", designation := some "Dev" }]).nodes.map
      (fun n => getP n.props "doj") = [some "2020-01-01"] := by
  decide

/-- CLAIM C5 (amended) — in phase 1, for a record matching an existing
    Employee node (and whose extra map does not itself collide with these
    keys), gender and designation are overwritten unconditionally with the
    incoming values (null removes them), while `doj` is overwritten only when
    the incoming value is non-null and preserved when it is null. -/
theorem phase1_overwrite_semantics
    (g : GraphState) (r : Rec) (eid : String) (n : GNode)
    (hid : r.empId = some eid) (hn : n ∈ g.nodes) (hm : isEmpWithId eid n = true)
    (hex : ∀ kv ∈ r.extra, kv.1 ≠ "gender" ∧ kv.1 ≠ "designation" ∧ kv.1 ≠ "doj") :
    ∃ n' ∈ (step1 g r).nodes, n'.nid = n.nid ∧
      getP n'.props "gender" = r.gender ∧
      getP n'.props "designation" = r.designation ∧
      getP n'.props "doj" =
        (match r.doj with
         | none => getP n.props "doj"
         | some d => some d) := by
  have hany : g.nodes.any (isEmpWithId eid) = true :=
    List.any_eq_true.mpr ⟨n, hn, hm⟩
  refine ⟨{ n with props := updMatch r n.props }, ?_, rfl, ?_, ?_, ?_⟩
  · simp only [step1, hid, hany, if_true]
    exact List.mem_map.mpr ⟨n, hn, by simp [upd1, hm]⟩
  · rw [updMatch_getP]
    unfold phiR
    rw [lastVal_eq_none r.extra "gender" (fun kv h => (hex kv h).1)]
    simp
  · rw [updMatch_getP]
    unfold phiR
    rw [lastVal_eq_none r.extra "designation" (fun kv h => (hex kv h).2.1)]
    simp
  · rw [updMatch_getP]
    unfold phiR
    rw [lastVal_eq_none r.extra "doj" (fun kv h => (hex kv h).2.2)]
    cases r.doj <;> simp

def c5n : GNode := ⟨0, NLabel.employee, [("empId", "E1"), ("name", "Old"), ("doj", "2020-01-01")]⟩

def c5g : GraphState := ⟨[c5n], [], 1⟩

def c5r : Rec :=
  { empId := some "E1", name := some "Alice", gender := some "F", designation := some "Dev" }

/-- Witness for `phase1_overwrite_semantics` at a concrete state and record. -/
theorem phase1_overwrite_semantics_witness :
    (c5r.empId = some "E1" ∧ c5n ∈ c5g.nodes ∧ isEmpWithId "E1" c5n = true) ∧
    ∃ n' ∈ (step1 c5g c5r).nodes, n'.nid = c5n.nid ∧
      getP n'.props "gender" = c5r.gender ∧
      getP n'.props "designation" = c5r.designation ∧
      getP n'.props "doj" =
        (match c5r.doj with
         | none => getP c5n.props "doj"
         | some d => some d) :=
  ⟨⟨rfl, by decide, by decide⟩,
    phase1_overwrite_semantics c5g c5r "E1" c5n rfl (by decide) (by decide) (by decide)⟩

/-- CLAIM C6 — in phase 1, re-ingesting an existing Employee with a null name
    leaves the stored name unchanged (coalesce), and an incoming non-null
    designation always overwrites the stored one (extra-map keys aside). -/
theorem phase1_name_coalesce
    (g : GraphState) (r : Rec) (eid : String) (n : GNode)
    (hid : r.empId = some eid) (hname : r.name = none)
    (hn : n ∈ g.nodes) (hm : isEmpWithId eid n = true)
    (hex : ∀ kv ∈ r.extra, kv.1 ≠ "name" ∧ kv.1 ≠ "designation") :
    ∃ n' ∈ (step1 g r).nodes, n'.nid = n.nid ∧
      getP n'.props "name" = getP n.props "name" ∧
      (∀ d, r.designation = some d → getP n'.props "designation" = some d) := by
  have hany : g.nodes.any (isEmpWithId eid) = true :=
    List.any_eq_true.mpr ⟨n, hn, hm⟩
  refine ⟨{ n with props := updMatch r n.props }, ?_, rfl, ?_, ?_⟩
  · simp only [step1, hid, hany, if_true]
    exact List.mem_map.mpr ⟨n, hn, by simp [upd1, hm]⟩
  · rw [updMatch_getP]
    unfold phiR
    rw [lastVal_eq_none r.extra "name" (fun kv h => (hex kv h).1)]
    simp [hname, coalesce]
  · intro d hd
    rw [updMatch_getP]
    unfold phiR
    rw [lastVal_eq_none r.extra "designation" (fun kv h => (hex kv h).2)]
    simp [hd]

def c6n : GNode := ⟨0, NLabel.employee, [("empId", "E1"), ("name", "Old"), ("designation", "Dev")]⟩

def c6g : GraphState := ⟨[c6n], [], 1⟩

def c6r : Rec := { empId := some "E1", designation := some "Lead" }

/-- Witness for `phase1_name_coalesce` at a concrete state and record. -/
theorem phase1_name_coalesce_witness :
    (c6r.name = none ∧ c6n ∈ c6g.nodes ∧ isEmpWithId "E1" c6n = true) ∧
    ∃ n' ∈ (step1 c6g c6r).nodes, n'.nid = c6n.nid ∧
      getP n'.props "name" = getP c6n.props "name" ∧
      (∀ d, c6r.designation = some d → getP n'.props "designation" = some d) :=
  ⟨⟨rfl, by decide, by decide⟩,
    phase1_name_coalesce c6g c6r "E1" c6n rfl rfl (by decide) (by decide) (by decide)⟩

/-! ## Edge evolution: identity and WORKS_ON.since are never regressed -/

/-- An edge may evolve without changing its endpoints or type and without
    losing a previously set `since` value. -/
def SinceKeeps (e e' : GEdge) : Prop :=
  e'.src = e.src ∧ e'.dst = e.dst ∧ e'.typ = e.typ ∧
  ∀ v, getP e.props "since" = some v → getP e'.props "since" = some v

theorem sinceKeeps_refl (e : GEdge) : SinceKeeps e e := ⟨rfl, rfl, rfl, fun _ h => h⟩

theorem sinceKeeps_trans {a b c : GEdge} (h1 : SinceKeeps a b) (h2 : SinceKeeps b c) :
    SinceKeeps a c :=
  ⟨h2.1.trans h1.1, h2.2.1.trans h1.2.1, h2.2.2.1.trans h1.2.2.1,
   fun v hv => h2.2.2.2 v (h1.2.2.2 v hv)⟩

/-- Positional evolution of the whole edge list: existing edges stay at their
    index and keep identity and `since`. -/
abbrev EdgesEvolve (g g' : GraphState) : Prop :=
  ∀ (i : Nat) (e : GEdge), g.edges[i]? = some e →
    ∃ e', g'.edges[i]? = some e' ∧ SinceKeeps e e'

theorem edgesEvolve_refl (g : GraphState) : EdgesEvolve g g :=
  fun _ e hi => ⟨e, hi, sinceKeeps_refl e⟩

theorem edgesEvolve_trans {g h k : GraphState}
    (h1 : EdgesEvolve g h) (h2 : EdgesEvolve h k) : EdgesEvolve g k := by
  intro i e hi
  obtain ⟨e1, hi1, hk1⟩ := h1 i e hi
  obtain ⟨e2, hi2, hk2⟩ := h2 i e1 hi1
  exact ⟨e2, hi2, sinceKeeps_trans hk1 hk2⟩

theorem edgesEvolve_of_eq {g g' : GraphState} (h : g'.edges = g.edges) :
    EdgesEvolve g g' := by
  intro i e hi
  exact ⟨e, by rw [h]; exact hi, sinceKeeps_refl e⟩

theorem edgesEvolve_of_append {g g' : GraphState} (l : List GEdge)
    (h : g'.edges = g.edges ++ l) : EdgesEvolve g g' := by
  intro i e hi
  have hlen : i < g.edges.length := (List.getElem?_eq_some.mp hi).1
  refine ⟨e, ?_, sinceKeeps_refl e⟩
  rw [h, List.getElem?_append, if_pos hlen]
  exact hi

theorem edgesEvolve_mergeEdge (g : GraphState) (s d : Nat) (t : EType) :
    EdgesEvolve g (mergeEdge g s d t) := by
  unfold mergeEdge
  by_cases h : edgeExists g s d t
  · simpa [h] using edgesEvolve_refl g
  · simp only [h, if_false]
    exact edgesEvolve_of_append _ rfl

theorem edgesEvolve_mergeSkillEdge (g : GraphState) (s d : Nat) (ty : String) :
    EdgesEvolve g (mergeSkillEdge g s d ty) := by
  unfold mergeSkillEdge
  by_cases h : skillEdgeExists g s d ty
  · simpa [h] using edgesEvolve_refl g
  · simp only [h, if_false]
    exact edgesEvolve_of_append _ rfl

theorem edgesEvolve_worksOnUpd (g : GraphState) (s d : Nat) (x : Option String) :
    EdgesEvolve g (worksOnUpd g s d x) := by
  unfold worksOnUpd
  by_cases h : (g.edges.any fun e => e.src == s && e.dst == d && e.typ == EType.worksOn) = true
  · simp only [h, if_true]
    intro i e hi
    refine ⟨if (e.src == s && e.dst == d && e.typ == EType.worksOn) = true then
        { e with props := setP e.props "since" (coalesce (getP e.props "since") x) }
      else e, ?_, ?_⟩
    · simp [List.getElem?_map, hi]
    · by_cases hc : (e.src == s && e.dst == d && e.typ == EType.worksOn) = true
      · simp only [hc, if_true]
        refine ⟨rfl, rfl, rfl, ?_⟩
        intro v hv
        simp [getP_setP, hv, coalesce]
      · simp only [hc, if_false]
        exact sinceKeeps_refl e
  · simp only [h, if_false]
    exact edgesEvolve_of_append _ rfl

theorem edgesEvolve_foldl {α : Type} (f : GraphState → α → GraphState)
    (hf : ∀ h a, EdgesEvolve h (f h a)) (g : GraphState) (l : List α) :
    EdgesEvolve g (l.foldl f g) := by
  induction l generalizing g with
  | nil => exact edgesEvolve_refl g
  | cons a rest ih =>
    exact edgesEvolve_trans (hf g a) (ih (f g a))

theorem step1_edges (g : GraphState) (r : Rec) : (step1 g r).edges = g.edges := by
  unfold step1
  cases r.empId with
  | none => rfl
  | some eid =>
    by_cases h : g.nodes.any (isEmpWithId eid) <;> simp [h]

theorem edgesEvolve_ensureLink (lb : NLabel) (nm : String) (cprops : PropMap)
    (link : GraphState → Nat → Nat → GraphState)
    (hL : ∀ h s d, EdgesEvolve h (link h s d)) (h : GraphState) (src : Nat) :
    EdgesEvolve h (ensureLink lb nm cprops link h src) := by
  unfold ensureLink
  by_cases hms : (h.nodes.filter (isLabeledNamed lb nm)).isEmpty
  · simp only [hms, if_true]
    have h1 : EdgesEvolve h
        { h with nodes := h.nodes ++ [⟨h.nextId, lb, cprops⟩], nextId := h.nextId + 1 } :=
      edgesEvolve_of_eq rfl
    exact edgesEvolve_trans h1 (hL _ src h.nextId)
  · simp only [hms, if_false]
    apply edgesEvolve_foldl
    intro h2 mn
    exact hL h2 src mn.nid

theorem edgesEvolve_step2 (g : GraphState) (r : Rec) : EdgesEvolve g (step2 g r) := by
  unfold step2
  cases r.empId with
  | none => exact edgesEvolve_refl g
  | some eid =>
    cases r.team with
    | none => exact edgesEvolve_refl g
    | some t =>
      by_cases ht : t = ""
      · simp only [ht, if_pos rfl]
        exact edgesEvolve_refl g
      · simp only [ht, if_neg ht]
        apply edgesEvolve_foldl
        intro h e
        unfold teamLinkBody
        exact edgesEvolve_ensureLink _ _ _ _
          (fun h2 s d => edgesEvolve_mergeEdge h2 s d EType.worksIn) h e.nid

theorem edgesEvolve_stepRef (mk : String → String → String) (ety : EType)
    (refOf : Rec → Option String) (g : GraphState) (r : Rec) :
    EdgesEvolve g (stepRef mk ety refOf g r) := by
  unfold stepRef
  cases r.empId with
  | none => exact edgesEvolve_refl g
  | some eid =>
    cases refOf r with
    | none => exact edgesEvolve_refl g
    | some m =>
      by_cases hm : m = ""
      · simp only [hm, if_pos rfl]
        exact edgesEvolve_refl g
      · simp only [if_neg hm]
        apply edgesEvolve_foldl
        intro h e
        unfold refFoldBody
        exact edgesEvolve_ensureLink _ _ _ _
          (fun h2 s d => edgesEvolve_mergeEdge h2 s d ety) h e.nid

theorem edgesEvolve_mergeSkillFor (g : GraphState) (enid : Nat) (p ty : String) :
    EdgesEvolve g (mergeSkillFor g enid p ty) := by
  unfold mergeSkillFor
  exact edgesEvolve_ensureLink _ _ _ _
    (fun h2 s d => edgesEvolve_mergeSkillEdge h2 s d ty) g enid

theorem edgesEvolve_step4 (g : GraphState) (r : Rec) : EdgesEvolve g (step4 g r) := by
  unfold step4
  cases r.empId with
  | none => exact edgesEvolve_refl g
  | some eid =>
    apply edgesEvolve_foldl
    intro h e
    unfold skillBody
    have h1 : EdgesEvolve h
        (match r.primarySkill with
         | some p => mergeSkillFor h e.nid p "primary"
         | none => h) := by
      cases r.primarySkill with
      | none => exact edgesEvolve_refl h
      | some p => exact edgesEvolve_mergeSkillFor h e.nid p "primary"
    refine edgesEvolve_trans h1 ?_
    cases r.secondarySkill with
    | none => exact edgesEvolve_refl _
    | some q => exact edgesEvolve_mergeSkillFor _ e.nid q "secondary"

theorem edgesEvolve_step5 (g : GraphState) (r : Rec) : EdgesEvolve g (step5 g r) := by
  unfold step5
  cases r.empId with
  | none => exact edgesEvolve_refl g
  | some eid =>
    cases r.project with
    | none => exact edgesEvolve_refl g
    | some p =>
      by_cases hp : p = ""
      · simp only [hp, if_pos rfl]
        exact edgesEvolve_refl g
      · simp only [if_neg hp]
        apply edgesEvolve_foldl
        intro h e
        unfold projLinkBody
        exact edgesEvolve_ensureLink _ _ _ _
          (fun h2 s d => edgesEvolve_worksOnUpd h2 s d r.doj) h e.nid

theorem edgesEvolve_upsert (g : GraphState) (rs : List Rec) :
    EdgesEvolve g (upsert g rs) := by
  unfold upsert
  by_cases h : rs.isEmpty
  · simp only [h, if_true]
    exact edgesEvolve_refl g
  · simp only [h, if_false]
    refine edgesEvolve_trans (g := g) (h := phase1 g rs) ?_ ?_
    · exact edgesEvolve_foldl step1 (fun h r => edgesEvolve_of_eq (step1_edges h r)) g rs
    · refine edgesEvolve_trans (edgesEvolve_foldl step2 edgesEvolve_step2 _ rs) ?_
      refine edgesEvolve_trans
        (edgesEvolve_foldl step3M (edgesEvolve_stepRef stubManagerId EType.reportsTo _) _ rs) ?_
      refine edgesEvolve_trans
        (edgesEvolve_foldl step3L (edgesEvolve_stepRef stubLeadId EType.leadReporting _) _ rs) ?_
      exact edgesEvolve_trans (edgesEvolve_foldl step4 edgesEvolve_step4 _ rs)
        (edgesEvolve_foldl step5 edgesEvolve_step5 _ rs)

/-- CLAIM C7 — `WORKS_ON.since` is set once and never touched again: any
    edge whose `since` property is already set keeps exactly that value (and
    its endpoints and type) at its position through a whole `upsert` batch, in
    particular through the projects phase with any different `date_of_joining`. -/
theorem works_on_since_set_once
    (g : GraphState) (rs : List Rec) (i : Nat) (e : GEdge) (v : String)
    (hi : g.edges[i]? = some e) (hv : getP e.props "since" = some v) :
    ∃ e', (upsert g rs).edges[i]? = some e' ∧
      e'.src = e.src ∧ e'.dst = e.dst ∧ e'.typ = e.typ ∧
      getP e'.props "since" = some v := by
  obtain ⟨e', hi', hk⟩ := edgesEvolve_upsert g rs i e hi
  exact ⟨e', hi', hk.1, hk.2.1, hk.2.2.1, hk.2.2.2 v hv⟩

def c7e : GEdge := ⟨0, 1, EType.worksOn, [("since", "2020-01-01")]⟩

def c7g : GraphState :=
  ⟨[⟨0, NLabel.employee, [("empId", "E1"), ("name", "Alice")]⟩,
    ⟨1, NLabel.project, [("name", "Apollo")]⟩], [c7e], 2⟩

def c7r : Rec :=
  { empId := some "E1", name := some "Alice", doj := some "2023-09-09",
    project := some "Apollo" }

/-- Witness for `works_on_since_set_once`: re-applying the projects phase with
    a different `date_of_joining` for the same employee/project pair leaves
    `since` at its original value. -/
theorem works_on_since_set_once_witness :
    (c7g.edges[0]? = some c7e ∧ getP c7e.props "since" = some "2020-01-01") ∧
    ∃ e', (upsert c7g [c7r]).edges[0]? = some e' ∧
      e'.src = c7e.src ∧ e'.dst = c7e.dst ∧ e'.typ = c7e.typ ∧
      getP e'.props "since" = some "2020-01-01" :=
  ⟨⟨by decide, by decide⟩,
    works_on_since_set_once c7g [c7r] 0 c7e "2020-01-01" (by decide) (by decide)⟩

/-! ## Stub creation and merge-by-name (phase 3) -/

theorem mergeEdge_nodes (g : GraphState) (s d : Nat) (t : EType) :
    (mergeEdge g s d t).nodes = g.nodes := by
  unfold mergeEdge
  by_cases h : edgeExists g s d t = true <;> simp [h]

theorem mergeEdge_nextId (g : GraphState) (s d : Nat) (t : EType) :
    (mergeEdge g s d t).nextId = g.nextId := by
  unfold mergeEdge
  by_cases h : edgeExists g s d t = true <;> simp [h]

theorem any_append_left {α : Type} (l1 l2 : List α) (p : α → Bool)
    (h : l1.any p = true) : (l1 ++ l2).any p = true := by
  simp [List.any_append, h]

theorem any_append_single {α : Type} (l : List α) (e : α) (p : α → Bool)
    (h : p e = true) : (l ++ [e]).any p = true := by
  simp [List.any_append, h]

theorem edgeExists_mergeEdge_mono (g : GraphState) (s d : Nat) (t : EType)
    (s' d' : Nat) (t' : EType) (h : edgeExists g s d t = true) :
    edgeExists (mergeEdge g s' d' t') s d t = true := by
  unfold mergeEdge
  by_cases hc : edgeExists g s' d' t' = true
  · rw [if_pos hc]; exact h
  · rw [if_neg hc]
    exact any_append_left g.edges _ _ h

theorem edgeExists_mergeEdge_self (g : GraphState) (s d : Nat) (t : EType) :
    edgeExists (mergeEdge g s d t) s d t = true := by
  unfold mergeEdge
  by_cases hc : edgeExists g s d t = true
  · rw [if_pos hc]; exact hc
  · rw [if_neg hc]
    exact any_append_single g.edges _ _ (by simp)

/-- A stub node's pattern always re-matches the name it was created with. -/
theorem stub_matches (nid : Nat) (m x : String) :
    isLabeledNamed NLabel.employee m ⟨nid, NLabel.employee, [("name", m), ("empId", x)]⟩ = true := by
  simp [isLabeledNamed, getP]

/-- A fold whose every step fixes the accumulator is the identity. -/
theorem foldl_fixed {α β : Type} (f : β → α → β) (S : β) (l : List α)
    (h : ∀ a ∈ l, f S a = S) : l.foldl f S = S := by
  induction l with
  | nil => rfl
  | cons a rest ih =>
    rw [List.foldl_cons, h a (List.mem_cons_self a rest)]
    exact ih (fun b hb => h b (List.mem_cons_of_mem a hb))

/-- The inner relationship fold of `ensureLink` over the bound target nodes,
    for a link operation that keeps nodes and `nextId`, establishes its done
    predicate `D` at the linked pair, and preserves `D` elsewhere. -/
theorem link_fold_all (link : GraphState → Nat → Nat → GraphState)
    (D : GraphState → Nat → Nat → Prop)
    (hLn : ∀ h s d, (link h s d).nodes = h.nodes)
    (hLx : ∀ h s d, (link h s d).nextId = h.nextId)
    (hLd : ∀ h s d, D (link h s d) s d)
    (hLm : ∀ h s d s' d', D h s d → D (link h s' d') s d)
    (src : Nat) (ms : List GNode) (S : GraphState) :
    (ms.foldl (fun h2 mn => link h2 src mn.nid) S).nodes = S.nodes ∧
    (ms.foldl (fun h2 mn => link h2 src mn.nid) S).nextId = S.nextId ∧
    (∀ s d, D S s d → D (ms.foldl (fun h2 mn => link h2 src mn.nid) S) s d) ∧
    (∀ mn ∈ ms, D (ms.foldl (fun h2 mn => link h2 src mn.nid) S) src mn.nid) := by
  induction ms generalizing S with
  | nil => exact ⟨rfl, rfl, fun _ _ h => h, by simp⟩
  | cons mn0 rest ih =>
    obtain ⟨ihn, ihx, ihm, iha⟩ := ih (link S src mn0.nid)
    refine ⟨?_, ?_, ?_, ?_⟩
    · simp only [List.foldl_cons]
      rw [ihn, hLn]
    · simp only [List.foldl_cons]
      rw [ihx, hLx]
    · intro s d h
      simp only [List.foldl_cons]
      exact ihm s d (hLm S s d _ _ h)
    · intro mn hmn
      rcases List.mem_cons.mp hmn with he | he
      · subst he
        simp only [List.foldl_cons]
        exact ihm src mn.nid (hLd S src mn.nid)
      · simpa only [List.foldl_cons] using iha mn he

/-- `ensureLink` when a node with the target label and name already exists:
    no node is created and every bound target gets linked. -/
theorem ensureLink_stable (lb : NLabel) (nm : String) (cprops : PropMap)
    (link : GraphState → Nat → Nat → GraphState)
    (D : GraphState → Nat → Nat → Prop)
    (hLn : ∀ h s d, (link h s d).nodes = h.nodes)
    (hLx : ∀ h s d, (link h s d).nextId = h.nextId)
    (hLd : ∀ h s d, D (link h s d) s d)
    (hLm : ∀ h s d s' d', D h s d → D (link h s' d') s d)
    (S : GraphState) (src : Nat)
    (hstub : (S.nodes.filter (isLabeledNamed lb nm)).isEmpty = false) :
    (ensureLink lb nm cprops link S src).nodes = S.nodes ∧
    (ensureLink lb nm cprops link S src).nextId = S.nextId ∧
    (∀ s d, D S s d → D (ensureLink lb nm cprops link S src) s d) ∧
    (∀ mn ∈ S.nodes.filter (isLabeledNamed lb nm),
      D (ensureLink lb nm cprops link S src) src mn.nid) := by
  have hne : ¬ ((S.nodes.filter (isLabeledNamed lb nm)).isEmpty = true) := by
    rw [hstub]; simp
  unfold ensureLink
  rw [if_neg hne]
  exact link_fold_all link D hLn hLx hLd hLm src _ S

/-- `ensureLink` when no node with the target label and name exists: exactly
    one node carrying `cprops` is created, with the running `nextId`, and the
    source is linked to it. -/
theorem ensureLink_creates (lb : NLabel) (nm : String) (cprops : PropMap)
    (link : GraphState → Nat → Nat → GraphState)
    (D : GraphState → Nat → Nat → Prop)
    (hDE : ∀ g1 g2 : GraphState, g1.edges = g2.edges → ∀ s d, D g1 s d → D g2 s d)
    (hLn : ∀ h s d, (link h s d).nodes = h.nodes)
    (hLx : ∀ h s d, (link h s d).nextId = h.nextId)
    (hLd : ∀ h s d, D (link h s d) s d)
    (hLm : ∀ h s d s' d', D h s d → D (link h s' d') s d)
    (S : GraphState) (src : Nat)
    (hnone : S.nodes.filter (isLabeledNamed lb nm) = []) :
    (ensureLink lb nm cprops link S src).nodes = S.nodes ++ [⟨S.nextId, lb, cprops⟩] ∧
    (ensureLink lb nm cprops link S src).nextId = S.nextId + 1 ∧
    D (ensureLink lb nm cprops link S src) src S.nextId ∧
    (∀ s d, D S s d → D (ensureLink lb nm cprops link S src) s d) := by
  have hc : (S.nodes.filter (isLabeledNamed lb nm)).isEmpty = true := by
    rw [hnone]; rfl
  unfold ensureLink
  rw [if_pos hc]
  refine ⟨by rw [hLn], by rw [hLx], hLd _ src S.nextId, ?_⟩
  intro s d h
  have h1 : D { S with nodes := S.nodes ++ [⟨S.nextId, lb, cprops⟩], nextId := S.nextId + 1 } s d :=
    hDE S { S with nodes := S.nodes ++ [⟨S.nextId, lb, cprops⟩], nextId := S.nextId + 1 } rfl s d h
  exact hLm _ s d src S.nextId h1

/-- The per-employee-row fold of `ensureLink` when a node with the target
    name already exists in the running state: a pure relationship update. -/
theorem ensureLink_fold_stable (lb : NLabel) (nm : String) (cprops : PropMap)
    (link : GraphState → Nat → Nat → GraphState)
    (D : GraphState → Nat → Nat → Prop)
    (hLn : ∀ h s d, (link h s d).nodes = h.nodes)
    (hLx : ∀ h s d, (link h s d).nextId = h.nextId)
    (hLd : ∀ h s d, D (link h s d) s d)
    (hLm : ∀ h s d s' d', D h s d → D (link h s' d') s d)
    (es : List GNode) (S : GraphState)
    (hstub : (S.nodes.filter (isLabeledNamed lb nm)).isEmpty = false) :
    (es.foldl (fun h e => ensureLink lb nm cprops link h e.nid) S).nodes = S.nodes ∧
    (es.foldl (fun h e => ensureLink lb nm cprops link h e.nid) S).nextId = S.nextId ∧
    (∀ s d, D S s d →
      D (es.foldl (fun h e => ensureLink lb nm cprops link h e.nid) S) s d) ∧
    (∀ e ∈ es, ∀ mn ∈ S.nodes.filter (isLabeledNamed lb nm),
      D (es.foldl (fun h e => ensureLink lb nm cprops link h e.nid) S) e.nid mn.nid) := by
  induction es generalizing S with
  | nil => exact ⟨rfl, rfl, fun _ _ h => h, by simp⟩
  | cons e0 rest ih =>
    obtain ⟨c1, c2, c3, c4⟩ :=
      ensureLink_stable lb nm cprops link D hLn hLx hLd hLm S e0.nid hstub
    have hstub2 : ((ensureLink lb nm cprops link S e0.nid).nodes.filter
        (isLabeledNamed lb nm)).isEmpty = false := by
      rw [c1]; exact hstub
    obtain ⟨ihn, ihx, ihm, iha⟩ := ih (ensureLink lb nm cprops link S e0.nid) hstub2
    refine ⟨?_, ?_, ?_, ?_⟩
    · simp only [List.foldl_cons]
      rw [ihn, c1]
    · simp only [List.foldl_cons]
      rw [ihx, c2]
    · intro s d h
      simp only [List.foldl_cons]
      exact ihm s d (c3 s d h)
    · intro e he mn hmn
      rcases List.mem_cons.mp he with h0 | h0
      · subst h0
        simp only [List.foldl_cons]
        exact ihm e.nid mn.nid (c4 mn hmn)
      · simp only [List.foldl_cons]
        have hmn2 : mn ∈ (ensureLink lb nm cprops link S e0.nid).nodes.filter
            (isLabeledNamed lb nm) := by
          rw [c1]; exact hmn
        exact iha e h0 mn hmn2

/-- The per-employee-row fold of `ensureLink` when no node with the target
    name exists and at least one employee row is bound: exactly one node is
    created and every row is linked to it. -/
theorem ensureLink_fold_creates (lb : NLabel) (nm : String) (cprops : PropMap)
    (link : GraphState → Nat → Nat → GraphState)
    (D : GraphState → Nat → Nat → Prop)
    (hDE : ∀ g1 g2 : GraphState, g1.edges = g2.edges → ∀ s d, D g1 s d → D g2 s d)
    (hLn : ∀ h s d, (link h s d).nodes = h.nodes)
    (hLx : ∀ h s d, (link h s d).nextId = h.nextId)
    (hLd : ∀ h s d, D (link h s d) s d)
    (hLm : ∀ h s d s' d', D h s d → D (link h s' d') s d)
    (hmk : ∀ k : Nat, isLabeledNamed lb nm ⟨k, lb, cprops⟩ = true)
    (e0 : GNode) (rest : List GNode) (S : GraphState)
    (hnone : S.nodes.filter (isLabeledNamed lb nm) = []) :
    ((e0 :: rest).foldl (fun h e => ensureLink lb nm cprops link h e.nid) S).nodes =
      S.nodes ++ [⟨S.nextId, lb, cprops⟩] ∧
    ((e0 :: rest).foldl (fun h e => ensureLink lb nm cprops link h e.nid) S).nextId =
      S.nextId + 1 ∧
    (∀ s d, D S s d →
      D ((e0 :: rest).foldl (fun h e => ensureLink lb nm cprops link h e.nid) S) s d) ∧
    (∀ e ∈ (e0 :: rest),
      D ((e0 :: rest).foldl (fun h e => ensureLink lb nm cprops link h e.nid) S)
        e.nid S.nextId) := by
  simp only [List.foldl_cons]
  obtain ⟨c1, c2, c3, c4⟩ :=
    ensureLink_creates lb nm cprops link D hDE hLn hLx hLd hLm S e0.nid hnone
  have hfilter : (ensureLink lb nm cprops link S e0.nid).nodes.filter
      (isLabeledNamed lb nm) = [⟨S.nextId, lb, cprops⟩] := by
    rw [c1, List.filter_append, hnone, List.nil_append]
    simp [List.filter, hmk]
  have hstub2 : ((ensureLink lb nm cprops link S e0.nid).nodes.filter
      (isLabeledNamed lb nm)).isEmpty = false := by
    rw [hfilter]; rfl
  obtain ⟨fn, fx, fm, fa⟩ := ensureLink_fold_stable lb nm cprops link D hLn hLx hLd hLm
    rest (ensureLink lb nm cprops link S e0.nid) hstub2
  refine ⟨?_, ?_, ?_, ?_⟩
  · rw [fn, c1]
  · rw [fx, c2]
  · intro s d h
    exact fm s d (c4 s d h)
  · intro e he
    rcases List.mem_cons.mp he with h0 | h0
    · subst h0
      exact fm e.nid S.nextId c3
    · exact fa e h0 ⟨S.nextId, lb, cprops⟩ (by rw [hfilter]; exact List.mem_singleton.mpr rfl)

/-- The per-employee-row fold of `ensureLink` is the identity when a node with
    the target name exists and every row is already linked to every match. -/
theorem ensureLink_fold_id (lb : NLabel) (nm : String) (cprops : PropMap)
    (link : GraphState → Nat → Nat → GraphState)
    (D : GraphState → Nat → Nat → Prop)
    (hLi : ∀ h s d, D h s d → link h s d = h)
    (es : List GNode) (S : GraphState)
    (hne : (S.nodes.filter (isLabeledNamed lb nm)).isEmpty = false)
    (hD : ∀ e ∈ es, ∀ mn ∈ S.nodes.filter (isLabeledNamed lb nm), D S e.nid mn.nid) :
    es.foldl (fun h e => ensureLink lb nm cprops link h e.nid) S = S := by
  apply foldl_fixed
  intro e he
  show ensureLink lb nm cprops link S e.nid = S
  have hne' : ¬ ((S.nodes.filter (isLabeledNamed lb nm)).isEmpty = true) := by
    rw [hne]; simp
  unfold ensureLink
  rw [if_neg hne']
  apply foldl_fixed
  intro mn hmn
  show link S e.nid mn.nid = S
  exact hLi S e.nid mn.nid (hD e he mn hmn)

/-- One phase-3 step when no node carries the referenced name: the stub node
    with the synthetic id is appended once and every matched employee row's
    edge to it is merged. -/
theorem stepRef_stub (mk : String → String → String) (ety : EType)
    (refOf : Rec → Option String) (g : GraphState) (r : Rec) (eid m : String)
    (hid : r.empId = some eid) (href : refOf r = some m) (hm : m ≠ "")
    (hes : empMatches g eid ≠ [])
    (hnone : g.nodes.filter (isLabeledNamed NLabel.employee m) = []) :
    (stepRef mk ety refOf g r).nodes =
      g.nodes ++ [⟨g.nextId, NLabel.employee, [("name", m), ("empId", mk eid m)]⟩] ∧
    (stepRef mk ety refOf g r).nextId = g.nextId + 1 ∧
    (∀ e ∈ empMatches g eid,
      edgeExists (stepRef mk ety refOf g r) e.nid g.nextId ety = true) := by
  unfold stepRef
  simp only [hid, href]
  rw [if_neg hm]
  rcases List.exists_cons_of_ne_nil hes with ⟨e0, rest, hes'⟩
  rw [hes']
  obtain ⟨c1, c2, _, c4⟩ := ensureLink_fold_creates NLabel.employee m
    [("name", m), ("empId", mk eid m)]
    (fun h2 s d => mergeEdge h2 s d ety)
    (fun h s d => edgeExists h s d ety = true)
    (fun g1 g2 hE s d hh => by
      show (g2.edges.any (fun e => e.src == s && e.dst == d && e.typ == ety)) = true
      rw [← hE]
      exact hh)
    (fun h s d => mergeEdge_nodes h s d ety)
    (fun h s d => mergeEdge_nextId h s d ety)
    (fun h s d => edgeExists_mergeEdge_self h s d ety)
    (fun h s d s' d' hh => edgeExists_mergeEdge_mono h s d ety s' d' ety hh)
    (fun k => stub_matches k m (mk eid m))
    e0 rest g hnone
  exact ⟨c1, c2, c4⟩

/-- One phase-3 step when a node carrying the referenced name already exists:
    no node is created. -/
theorem stepRef_no_create (mk : String → String → String) (ety : EType)
    (refOf : Rec → Option String) (S : GraphState) (r' : Rec) (m : String)
    (href : refOf r' = some m) (hm : m ≠ "")
    (hstub : (S.nodes.filter (isLabeledNamed NLabel.employee m)).isEmpty = false) :
    (stepRef mk ety refOf S r').nodes = S.nodes := by
  unfold stepRef
  cases hid : r'.empId with
  | none => rfl
  | some eid' =>
    simp only [href]
    rw [if_neg hm]
    exact (ensureLink_fold_stable NLabel.employee m [("name", m), ("empId", mk eid' m)]
      (fun h2 s d => mergeEdge h2 s d ety)
      (fun h s d => edgeExists h s d ety = true)
      (fun h s d => mergeEdge_nodes h s d ety)
      (fun h s d => mergeEdge_nextId h s d ety)
      (fun h s d => edgeExists_mergeEdge_self h s d ety)
      (fun h s d s' d' hh => edgeExists_mergeEdge_mono h s d ety s' d' ety hh)
      (empMatches S eid') S hstub).1

/-- CLAIM C4 (amended) — for a record with a non-empty manager (resp. lead)
    name, phase 3 merges the target Employee by name; when absent it creates a
    stub whose `empId` is `"stub::manager::"` (resp. `"stub::lead::"`) followed
    by the referencing `empId`, `"::"`, and the referenced name, and merges the
    REPORTS_TO (resp. LEAD_REPORTING) edge to it. A later manager (resp. lead)
    *reference* with that name merges into the same stub node, creating no new
    node; a later real *row* with that name, by contrast, is merged by `empId`
    in phase 1 and therefore lands on a separate node (see the
    counterexample). -/
theorem stub_created_and_merged_by_name (g : GraphState) (r : Rec) (eid m : String)
    (hid : r.empId = some eid) (hm : m ≠ "")
    (hes : empMatches g eid ≠ [])
    (hnone : g.nodes.filter (isLabeledNamed NLabel.employee m) = []) :
    (r.managerName = some m →
      ((step3M g r).nodes = g.nodes ++
          [⟨g.nextId, NLabel.employee,
            [("name", m), ("empId", "stub::manager::" ++ eid ++ "::" ++ m)]⟩] ∧
        (∀ e ∈ empMatches g eid,
          edgeExists (step3M g r) e.nid g.nextId EType.reportsTo = true) ∧
        (∀ r', r'.managerName = some m →
          (step3M (step3M g r) r').nodes = (step3M g r).nodes))) ∧
    (r.leadName = some m →
      ((step3L g r).nodes = g.nodes ++
          [⟨g.nextId, NLabel.employee,
            [("name", m), ("empId", "stub::lead::" ++ eid ++ "::" ++ m)]⟩] ∧
        (∀ e ∈ empMatches g eid,
          edgeExists (step3L g r) e.nid g.nextId EType.leadReporting = true) ∧
        (∀ r', r'.leadName = some m →
          (step3L (step3L g r) r').nodes = (step3L g r).nodes))) := by
  constructor
  · intro hmn
    obtain ⟨n1, _, n3⟩ :=
      stepRef_stub stubManagerId EType.reportsTo (fun r => r.managerName)
        g r eid m hid hmn hm hes hnone
    refine ⟨n1, n3, ?_⟩
    intro r' hr'
    have hstub2 : ((step3M g r).nodes.filter
        (isLabeledNamed NLabel.employee m)).isEmpty = false := by
      rw [show (step3M g r).nodes = _ from n1, List.filter_append, hnone, List.nil_append]
      simp [List.filter, stub_matches]
    exact stepRef_no_create stubManagerId EType.reportsTo (fun r => r.managerName)
      (step3M g r) r' m hr' hm hstub2
  · intro hln
    obtain ⟨n1, _, n3⟩ :=
      stepRef_stub stubLeadId EType.leadReporting (fun r => r.leadName)
        g r eid m hid hln hm hes hnone
    refine ⟨n1, n3, ?_⟩
    intro r' hr'
    have hstub2 : ((step3L g r).nodes.filter
        (isLabeledNamed NLabel.employee m)).isEmpty = false := by
      rw [show (step3L g r).nodes = _ from n1, List.filter_append, hnone, List.nil_append]
      simp [List.filter, stub_matches]
    exact stepRef_no_create stubLeadId EType.leadReporting (fun r => r.leadName)
      (step3L g r) r' m hr' hm hstub2

/-- CLAIM C4 (counterexample) — batch 1 creates a stub for the manager
    "Bob Lee" referenced by E1; batch 2's later *real row* named "Bob Lee"
    (id E2) is merged by `empId` in phase 1 and so does NOT merge into the
    stub: two distinct Employee nodes named "Bob Lee" remain, refuting the
    claim's final clause. -/
theorem later_real_row_creates_separate_node :
    ((upsert (upsert emptyG
          [{ empId := some "E1", name := some "Alice", managerName := some "Bob Lee" }])
        [{ empId := some "E2", name := some "Bob Lee" }]).nodes.filter
      (isLabeledNamed NLabel.employee "Bob Lee")).map
        (fun n => (n.nid, getP n.props "empId")) =
    [(1, some "stub::manager::E1::Bob Lee"), (2, some "E2")] := by
  decide

def c4g : GraphState := ⟨[⟨0, NLabel.employee, [("empId", "E1"), ("name", "Alice")]⟩], [], 1⟩

def c4r : Rec :=
  { empId := some "E1", name := some "Alice",
    managerName := some "Bob", leadName := some "Bob" }

def c4r2 : Rec := { empId := some "E9", managerName := some "Bob", leadName := some "Bob" }

/-- Witness for `stub_created_and_merged_by_name` at a concrete state. -/
theorem stub_created_and_merged_by_name_witness :
    (c4r.empId = some "E1" ∧ ("Bob" : String) ≠ "" ∧ empMatches c4g "E1" ≠ [] ∧
      c4g.nodes.filter (isLabeledNamed NLabel.employee "Bob") = []) ∧
    (step3M c4g c4r).nodes = c4g.nodes ++
      [⟨c4g.nextId, NLabel.employee,
        [("name", "Bob"), ("empId", "stub::manager::" ++ "E1" ++ "::" ++ "Bob")]⟩] ∧
    edgeExists (step3M c4g c4r)
      (⟨0, NLabel.employee, [("empId", "E1"), ("name", "Alice")]⟩ : GNode).nid
      c4g.nextId EType.reportsTo = true ∧
    (step3M (step3M c4g c4r) c4r2).nodes = (step3M c4g c4r).nodes ∧
    (step3L c4g c4r).nodes = c4g.nodes ++
      [⟨c4g.nextId, NLabel.employee,
        [("name", "Bob"), ("empId", "stub::lead::" ++ "E1" ++ "::" ++ "Bob")]⟩] := by
  have T := stub_created_and_merged_by_name c4g c4r "E1" "Bob" rfl
    (by decide) (by decide) (by decide)
  exact ⟨⟨rfl, by decide, by decide, by decide⟩,
    (T.1 rfl).1,
    (T.1 rfl).2.1 ⟨0, NLabel.employee, [("empId", "E1"), ("name", "Alice")]⟩ (by decide),
    (T.1 rfl).2.2 c4r2 rfl,
    (T.2 rfl).1⟩

/-! ## Batch idempotence (C1): per-key update algebra -/

/-- Every per-key action of the phase-1 update is the identity or a constant. -/
theorem phiR_idOrConst (r : Rec) (k : String) :
    (∀ x, phiR r k x = x) ∨ (∀ x y, phiR r k x = phiR r k y) := by
  unfold phiR
  cases lastVal r.extra k with
  | some v => right; intro x y; rfl
  | none =>
    by_cases h1 : k = "doj"
    · cases hd : r.doj with
      | none => left; intro x; simp [h1]
      | some d => right; intro x y; simp [h1]
    · by_cases h2 : k = "designation"
      · right; intro x y; simp [h1, h2]
      · by_cases h3 : k = "gender"
        · right; intro x y; simp [h1, h2, h3]
        · by_cases h4 : k = "name"
          · cases hn : r.name with
            | none => left; intro x; simp [h1, h2, h3, h4, coalesce]
            | some nm => right; intro x y; simp [h1, h2, h3, h4, coalesce]
          · left; intro x; simp [h1, h2, h3, h4]

/-- The composed per-key action of a record list, in batch order. -/
def phiChain (rs : List Rec) (k : String) (x : Option String) : Option String :=
  rs.foldl (fun a r => phiR r k a) x

theorem phiChain_cons (r : Rec) (rs : List Rec) (k : String) (x : Option String) :
    phiChain (r :: rs) k x = phiChain rs k (phiR r k x) := rfl

theorem phiChain_idOrConst (rs : List Rec) (k : String) :
    (∀ x, phiChain rs k x = x) ∨ (∀ x y, phiChain rs k x = phiChain rs k y) := by
  induction rs with
  | nil => left; intro x; rfl
  | cons r rest ih =>
    rcases phiR_idOrConst r k with h | h
    · rcases ih with hi | hi
      · left; intro x; rw [phiChain_cons, h, hi]
      · right; intro x y
        rw [phiChain_cons, phiChain_cons]
        exact hi _ _
    · right; intro x y
      rw [phiChain_cons, phiChain_cons, h x y]

/-- Replaying the same per-key chain is absorbed. -/
theorem phiChain_absorb (rs : List Rec) (k : String) (x : Option String) :
    phiChain rs k (phiChain rs k x) = phiChain rs k x := by
  rcases phiChain_idOrConst rs k with h | h
  · rw [h]
  · exact h _ _

/-- Against a created node, the match-update either fixes the key or agrees
    with the creation value (the name hypothesis covers the ON CREATE /
    coalesce difference). -/
theorem phiR_create_agree (r : Rec) (eid k : String) (hname : r.name.isSome = true)
    (x : Option String) :
    phiR r k x = x ∨ phiR r k x = phiC r eid k := by
  unfold phiR phiC
  cases lastVal r.extra k with
  | some v => right; rfl
  | none =>
    by_cases h1 : k = "doj"
    · cases hd : r.doj with
      | none => left; simp [h1, hd]
      | some d => right; simp [h1, hd]
    · by_cases h2 : k = "designation"
      · right; simp [h1, h2]
      · by_cases h3 : k = "gender"
        · right; simp [h1, h2, h3]
        · by_cases h4 : k = "name"
          · cases hn : r.name with
            | none => rw [hn] at hname; simp at hname
            | some nm => right; simp [h1, h2, h3, h4, coalesce, hn]
          · left; simp [h1, h2, h3, h4]

/-- Replaying the chain of a node created by its first matching record is
    absorbed. -/
theorem phiChain_absorb_create (r : Rec) (rs : List Rec) (eid k : String)
    (hname : r.name.isSome = true) :
    phiChain (r :: rs) k (phiChain rs k (phiC r eid k)) =
      phiChain rs k (phiC r eid k) := by
  rw [phiChain_cons]
  rcases phiR_create_agree r eid k hname (phiChain rs k (phiC r eid k)) with h | h
  · rw [h]
    exact phiChain_absorb rs k _
  · rw [h]

/-! ### Canonical batches -/

/-- A string starting with the synthetic-stub marker. -/
def hasStubStart (s : String) : Bool := s.toList.take 6 == "stub::".toList

/-- A canonical record as `upsert` receives them from `build_records`:
    id and name present, no extra key colliding with `empId` (snake-cased
    extra keys are all lowercase), and an id that is not itself shaped like a
    synthetic stub id. -/
def goodRec (r : Rec) : Bool :=
  r.empId.isSome && r.name.isSome &&
  r.extra.all (fun kv => kv.1 != "empId") &&
  (match r.empId with
   | some e => !(hasStubStart e)
   | none => true)

theorem goodRec_parts (r : Rec) (h : goodRec r = true) :
    (∃ e, r.empId = some e) ∧ r.name.isSome = true ∧
    (∀ kv ∈ r.extra, kv.1 ≠ "empId") ∧
    (∀ e, r.empId = some e → hasStubStart e = false) := by
  unfold goodRec at h
  simp only [Bool.and_eq_true, List.all_eq_true] at h
  obtain ⟨⟨⟨he, hn⟩, hx⟩, hs⟩ := h
  refine ⟨?_, hn, ?_, ?_⟩
  · cases hid : r.empId with
    | none => rw [hid] at he; simp at he
    | some e => exact ⟨e, rfl⟩
  · intro kv hkv
    have := hx kv hkv
    simpa using this
  · intro e hid
    rw [hid] at hs
    simpa using hs

theorem string_toList_append (s t : String) : (s ++ t).toList = s.toList ++ t.toList := by
  cases s with
  | mk sd =>
    cases t with
    | mk td => rfl

theorem hasStubStart_stubManagerId (e m : String) :
    hasStubStart (stubManagerId e m) = true := by
  unfold hasStubStart stubManagerId
  rw [string_toList_append, string_toList_append, string_toList_append]
  have h15 : ("stub::manager::".toList).length = 15 := by decide
  rw [List.take_append_of_le_length (by rw [List.length_append, List.length_append, h15]; omega),
      List.take_append_of_le_length (by rw [List.length_append, h15]; omega),
      List.take_append_of_le_length (by rw [h15]; omega)]
  decide

theorem hasStubStart_stubLeadId (e m : String) :
    hasStubStart (stubLeadId e m) = true := by
  unfold hasStubStart stubLeadId
  rw [string_toList_append, string_toList_append, string_toList_append]
  have h12 : ("stub::lead::".toList).length = 12 := by decide
  rw [List.take_append_of_le_length (by rw [List.length_append, List.length_append, h12]; omega),
      List.take_append_of_le_length (by rw [List.length_append, h12]; omega),
      List.take_append_of_le_length (by rw [h12]; omega)]
  decide

/-! ### Which records touch which node -/

def empIdOf (n : GNode) : Option String := getP n.props "empId"

/-- Whether phase 1's `MERGE` for record `r` binds node `n`. -/
def matchedBy (n : GNode) (r : Rec) : Bool :=
  match r.empId with
  | some eid => isEmpWithId eid n
  | none => false

def matchedRecs (rs : List Rec) (n : GNode) : List Rec :=
  rs.filter (fun r => matchedBy n r)

/-- Iterated ON MATCH updates, in batch order. -/
def phiFold (rs : List Rec) (ps : PropMap) : PropMap :=
  rs.foldl (fun ps r => updMatch r ps) ps

/-- What phase 1 does to one pre-existing node. -/
def trans1 (rs : List Rec) (n : GNode) : GNode :=
  { n with props := phiFold (matchedRecs rs n) n.props }

theorem getP_phiFold (rs : List Rec) (ps : PropMap) (k : String) :
    getP (phiFold rs ps) k = phiChain rs k (getP ps k) := by
  induction rs generalizing ps with
  | nil => rfl
  | cons r rest ih =>
    have h1 : phiFold (r :: rest) ps = phiFold rest (updMatch r ps) := rfl
    rw [h1, phiChain_cons, ih, updMatch_getP]

theorem phiR_empId_id (r : Rec) (hex : ∀ kv ∈ r.extra, kv.1 ≠ "empId")
    (x : Option String) : phiR r "empId" x = x := by
  unfold phiR
  rw [lastVal_eq_none _ _ hex]
  simp

theorem updMatch_empId (r : Rec) (hex : ∀ kv ∈ r.extra, kv.1 ≠ "empId") (ps : PropMap) :
    getP (updMatch r ps) "empId" = getP ps "empId" := by
  rw [updMatch_getP]
  exact phiR_empId_id r hex _

/-- One good update never changes which records match the node. -/
theorem matchedBy_updMatch (r0 : Rec) (hex : ∀ kv ∈ r0.extra, kv.1 ≠ "empId")
    (n : GNode) (r' : Rec) :
    matchedBy { n with props := updMatch r0 n.props } r' = matchedBy n r' := by
  unfold matchedBy
  cases r'.empId with
  | none => rfl
  | some eid =>
    unfold isEmpWithId
    rw [updMatch_empId r0 hex]

theorem phiChain_empId_id (rs : List Rec)
    (hgood : ∀ r ∈ rs, ∀ kv ∈ r.extra, kv.1 ≠ "empId") (x : Option String) :
    phiChain rs "empId" x = x := by
  induction rs generalizing x with
  | nil => rfl
  | cons r rest ih =>
    rw [phiChain_cons, phiR_empId_id r (hgood r (List.mem_cons_self _ _)) x]
    exact ih (fun r' h' => hgood r' (List.mem_cons_of_mem _ h')) x

/-- A whole fold of good updates never changes which records match the node. -/
theorem matchedBy_phiFold (rs : List Rec)
    (hgood : ∀ r ∈ rs, ∀ kv ∈ r.extra, kv.1 ≠ "empId")
    (n : GNode) (ps : PropMap) (r' : Rec) :
    matchedBy { n with props := phiFold rs ps } r' =
      matchedBy { n with props := ps } r' := by
  unfold matchedBy
  cases r'.empId with
  | none => rfl
  | some eid =>
    unfold isEmpWithId
    simp only
    rw [getP_phiFold, phiChain_empId_id rs hgood]

/-! ### Phase 1 as a map plus created nodes -/

theorem isEmpWithId_eq (eid : String) (n : GNode) :
    isEmpWithId eid n = true ↔
      n.label = NLabel.employee ∧ getP n.props "empId" = some eid := by
  simp [isEmpWithId]

theorem createProps_empId (r : Rec) (eid : String)
    (hex : ∀ kv ∈ r.extra, kv.1 ≠ "empId") :
    getP (createProps r eid) "empId" = some eid := by
  rw [createProps_getP]
  unfold phiC
  rw [lastVal_eq_none _ _ hex]
  simp

theorem list_any_congr {α : Type} (l : List α) (p q : α → Bool)
    (h : ∀ x ∈ l, p x = q x) : l.any p = l.any q := by
  induction l with
  | nil => rfl
  | cons a t ih =>
    simp only [List.any_cons]
    rw [h a (List.mem_cons_self _ _), ih (fun x hx => h x (List.mem_cons_of_mem _ hx))]

theorem matchedBy_upd1 (r : Rec) (eid : String)
    (hex : ∀ kv ∈ r.extra, kv.1 ≠ "empId") (n : GNode) (r' : Rec) :
    matchedBy (upd1 r eid n) r' = matchedBy n r' := by
  unfold upd1
  by_cases h : isEmpWithId eid n = true
  · rw [if_pos h]
    exact matchedBy_updMatch r hex n r'
  · rw [if_neg h]

theorem trans1_nil_map (l : List GNode) : l.map (trans1 []) = l := by
  induction l with
  | nil => rfl
  | cons a t ih =>
    rw [List.map_cons, ih]
    rfl

theorem step1_eq_match (g : GraphState) (r : Rec) (eid : String)
    (hid : r.empId = some eid) (hmatch : g.nodes.any (isEmpWithId eid) = true) :
    step1 g r = { g with nodes := g.nodes.map (upd1 r eid) } := by
  unfold step1
  rw [hid]
  show (if g.nodes.any (isEmpWithId eid) = true then _ else _) = _
  rw [if_pos hmatch]

theorem step1_eq_create (g : GraphState) (r : Rec) (eid : String)
    (hid : r.empId = some eid) (hmatch : ¬ g.nodes.any (isEmpWithId eid) = true) :
    step1 g r = { g with
      nodes := g.nodes ++ [⟨g.nextId, NLabel.employee, createProps r eid⟩],
      nextId := g.nextId + 1 } := by
  unfold step1
  rw [hid]
  show (if g.nodes.any (isEmpWithId eid) = true then _ else _) = _
  rw [if_neg hmatch]

theorem matchedBy_cons_true (n : GNode) (r : Rec) (rs : List Rec)
    (h : matchedBy n r = true) :
    matchedRecs (r :: rs) n = r :: matchedRecs rs n := by
  unfold matchedRecs
  rw [List.filter_cons, if_pos h]

theorem matchedBy_cons_false (n : GNode) (r : Rec) (rs : List Rec)
    (h : matchedBy n r = false) :
    matchedRecs (r :: rs) n = matchedRecs rs n := by
  unfold matchedRecs
  rw [List.filter_cons]
  simp [h]

/-- Applying a record's own update first, then the tail's transform, equals
    the whole-batch transform. -/
theorem trans1_upd1 (r : Rec) (eid : String) (hid : r.empId = some eid)
    (hex : ∀ kv ∈ r.extra, kv.1 ≠ "empId") (rs' : List Rec) (n : GNode) :
    trans1 rs' (upd1 r eid n) = trans1 (r :: rs') n := by
  unfold upd1
  by_cases hm : isEmpWithId eid n = true
  · rw [if_pos hm]
    unfold trans1
    have hmr : matchedRecs rs' { n with props := updMatch r n.props } = matchedRecs rs' n := by
      unfold matchedRecs
      apply List.filter_congr
      intro r' _
      exact matchedBy_updMatch r hex n r'
    have hcons : matchedRecs (r :: rs') n = r :: matchedRecs rs' n := by
      apply matchedBy_cons_true
      unfold matchedBy
      rw [hid]
      exact hm
    rw [hmr, hcons]
    rfl
  · rw [if_neg hm]
    unfold trans1
    have hcons : matchedRecs (r :: rs') n = matchedRecs rs' n := by
      apply matchedBy_cons_false
      unfold matchedBy
      rw [hid]
      simpa using hm
    rw [hcons]

/-- The data carried by a node created during phase 1: its matching records
    split as creator followed by the rest, its props are the creation values
    folded through the rest, and no pre-existing node matched the creator. -/
def NewNodeOK (rs : List Rec) (g : GraphState) (m : GNode) : Prop :=
  ∃ r0 rest eid0, r0.empId = some eid0 ∧
    matchedRecs rs m = r0 :: rest ∧
    m.props = phiFold rest (createProps r0 eid0) ∧
    (∀ n ∈ g.nodes, matchedBy n r0 = false)

/-- Two records matching the same node carry the same id, and every node one
    matches the other matches too. -/
theorem matched_same_id (m : GNode) (r r0 : Rec) (eid eid0 : String)
    (hid : r.empId = some eid) (hr0 : r0.empId = some eid0)
    (hm_r : matchedBy m r = true) (hm_r0 : matchedBy m r0 = true) :
    eid0 = eid := by
  unfold matchedBy at hm_r hm_r0
  rw [hid] at hm_r
  rw [hr0] at hm_r0
  have h1 := (isEmpWithId_eq eid m).mp hm_r
  have h2 := (isEmpWithId_eq eid0 m).mp hm_r0
  have := h1.2.symm.trans h2.2
  injection this with h
  exact h.symm

/-- The head of a node's matching-record list does match the node. -/
theorem matchedRecs_head (rs : List Rec) (m : GNode) (r0 : Rec) (rest : List Rec)
    (h : matchedRecs rs m = r0 :: rest) : matchedBy m r0 = true := by
  have : r0 ∈ matchedRecs rs m := by rw [h]; exact List.mem_cons_self _ _
  exact (List.mem_filter.mp this).2

theorem matchedRecs_head_mem (rs : List Rec) (m : GNode) (r0 : Rec) (rest : List Rec)
    (h : matchedRecs rs m = r0 :: rest) : r0 ∈ rs := by
  have : r0 ∈ matchedRecs rs m := by rw [h]; exact List.mem_cons_self _ _
  exact List.mem_of_mem_filter this

/-- Phase 1 maps each pre-existing node through `trans1` and appends the
    created nodes, leaves the edges alone, and every created node carries the
    `NewNodeOK` data. -/
theorem phase1_structure (rs : List Rec) (g : GraphState)
    (hgood : ∀ r ∈ rs, goodRec r = true) :
    ∃ new : List GNode,
      (phase1 g rs).nodes = g.nodes.map (trans1 rs) ++ new ∧
      (phase1 g rs).edges = g.edges ∧
      ∀ m ∈ new, NewNodeOK rs g m := by
  induction rs generalizing g with
  | nil =>
    refine ⟨[], ?_, rfl, by simp⟩
    rw [trans1_nil_map, List.append_nil]
    rfl
  | cons r rs' ih =>
    obtain ⟨⟨eid, hid⟩, hname, hex, hnostub⟩ := goodRec_parts r (hgood r (List.mem_cons_self _ _))
    have hgood' : ∀ r' ∈ rs', goodRec r' = true :=
      fun r' h' => hgood r' (List.mem_cons_of_mem _ h')
    have hstep : phase1 g (r :: rs') = phase1 (step1 g r) rs' := rfl
    rw [hstep]
    by_cases hmatch : g.nodes.any (isEmpWithId eid) = true
    · rw [step1_eq_match g r eid hid hmatch]
      obtain ⟨new, hnodes, hedges, hok⟩ := ih { g with nodes := g.nodes.map (upd1 r eid) } hgood'
      refine ⟨new, ?_, hedges, ?_⟩
      · rw [hnodes]
        show (g.nodes.map (upd1 r eid)).map (trans1 rs') ++ new = _
        rw [List.map_map]
        have : g.nodes.map (trans1 rs' ∘ upd1 r eid) = g.nodes.map (trans1 (r :: rs')) := by
          apply List.map_congr_left
          intro n _
          exact trans1_upd1 r eid hid hex rs' n
        rw [this]
      · intro m hm
        obtain ⟨r0, rest, eid0, hr0id, hmr, hprops, hnotin⟩ := hok m hm
        have hmbr : matchedBy m r = false := by
          cases hmb : matchedBy m r with
          | false => rfl
          | true =>
            exfalso
            obtain ⟨n0, hn0, hn0m⟩ := List.any_eq_true.mp hmatch
            have hn0' : upd1 r eid n0 ∈ ({ g with nodes := g.nodes.map (upd1 r eid) } : GraphState).nodes :=
              List.mem_map_of_mem _ hn0
            have hfalse := hnotin (upd1 r eid n0) hn0'
            have heq : eid0 = eid :=
              matched_same_id m r r0 eid eid0 hid hr0id hmb (matchedRecs_head rs' m r0 rest hmr)
            have hn0r0 : matchedBy n0 r0 = true := by
              unfold matchedBy
              rw [hr0id, heq]
              exact hn0m
            rw [matchedBy_upd1 r eid hex n0 r0] at hfalse
            rw [hn0r0] at hfalse
            cases hfalse
        refine ⟨r0, rest, eid0, hr0id, ?_, hprops, ?_⟩
        · rw [matchedBy_cons_false m r rs' hmbr]
          exact hmr
        · intro n hn
          have := hnotin (upd1 r eid n) (List.mem_map_of_mem _ hn)
          rw [matchedBy_upd1 r eid hex n r0] at this
          exact this
    · rw [step1_eq_create g r eid hid hmatch]
      have hnomatch : ∀ n ∈ g.nodes, isEmpWithId eid n = false := by
        intro n hn
        cases h : isEmpWithId eid n with
        | false => rfl
        | true =>
          exfalso
          exact hmatch (List.any_eq_true.mpr ⟨n, hn, h⟩)
      obtain ⟨new, hnodes, hedges, hok⟩ := ih
        { g with nodes := g.nodes ++ [⟨g.nextId, NLabel.employee, createProps r eid⟩],
                 nextId := g.nextId + 1 } hgood'
      have hcid : getP (createProps r eid) "empId" = some eid := createProps_empId r eid hex
      have hcmatch : matchedBy (⟨g.nextId, NLabel.employee, createProps r eid⟩ : GNode) r = true := by
        unfold matchedBy
        rw [hid]
        exact (isEmpWithId_eq eid _).mpr ⟨rfl, hcid⟩
      have hctrans : ∀ r', matchedBy (trans1 rs' ⟨g.nextId, NLabel.employee, createProps r eid⟩) r' =
          matchedBy (⟨g.nextId, NLabel.employee, createProps r eid⟩ : GNode) r' := by
        intro r'
        unfold trans1
        exact matchedBy_phiFold _
          (fun r1 h1 => (goodRec_parts r1 (hgood' r1 (List.mem_of_mem_filter h1))).2.2.1)
          _ _ r'
      refine ⟨trans1 rs' ⟨g.nextId, NLabel.employee, createProps r eid⟩ :: new, ?_, hedges, ?_⟩
      · rw [hnodes]
        show (g.nodes ++ [_]).map (trans1 rs') ++ new = _
        rw [List.map_append]
        have hold : g.nodes.map (trans1 rs') = g.nodes.map (trans1 (r :: rs')) := by
          apply List.map_congr_left
          intro n hn
          unfold trans1
          rw [matchedBy_cons_false n r rs' (by unfold matchedBy; rw [hid]; exact hnomatch n hn)]
        rw [hold, List.map_singleton, List.append_assoc, List.singleton_append]
      · intro m hm
        rcases List.mem_cons.mp hm with hm0 | hm0
        · subst hm0
          have hmrecs : matchedRecs rs' (trans1 rs' ⟨g.nextId, NLabel.employee, createProps r eid⟩) =
              matchedRecs rs' (⟨g.nextId, NLabel.employee, createProps r eid⟩ : GNode) := by
            unfold matchedRecs
            exact List.filter_congr (fun r' _ => hctrans r')
          refine ⟨r, matchedRecs rs' (⟨g.nextId, NLabel.employee, createProps r eid⟩ : GNode),
            eid, hid, ?_, ?_, ?_⟩
          · rw [matchedBy_cons_true _ r rs' (by rw [hctrans r]; exact hcmatch), hmrecs]
          · rfl
          · intro n hn
            unfold matchedBy
            rw [hid]
            exact hnomatch n hn
        · obtain ⟨r0, rest, eid0, hr0id, hmr, hprops, hnotin⟩ := hok m hm0
          have hmbr : matchedBy m r = false := by
            cases hmb : matchedBy m r with
            | false => rfl
            | true =>
              exfalso
              have hcnode : (⟨g.nextId, NLabel.employee, createProps r eid⟩ : GNode) ∈
                  ({ g with nodes := g.nodes ++ [⟨g.nextId, NLabel.employee, createProps r eid⟩], nextId := g.nextId + 1 } : GraphState).nodes := by
                simp
              have hfalse := hnotin _ hcnode
              have heq : eid0 = eid :=
                matched_same_id m r r0 eid eid0 hid hr0id hmb (matchedRecs_head rs' m r0 rest hmr)
              have : matchedBy (⟨g.nextId, NLabel.employee, createProps r eid⟩ : GNode) r0 = true := by
                unfold matchedBy
                rw [hr0id, heq]
                exact (isEmpWithId_eq eid _).mpr ⟨rfl, hcid⟩
              rw [this] at hfalse
              cases hfalse
          refine ⟨r0, rest, eid0, hr0id, ?_, hprops, ?_⟩
          · rw [matchedBy_cons_false m r rs' hmbr]
            exact hmr
          · intro n hn
            exact hnotin n (by simp [List.mem_append]; exact Or.inl hn)

theorem any_matchedBy_eq (l : List GNode) (r : Rec) (eid : String)
    (hid : r.empId = some eid) :
    l.any (fun n => matchedBy n r) = l.any (isEmpWithId eid) := by
  apply list_any_congr
  intro n _
  unfold matchedBy
  rw [hid]

/-- When every record already has a bound node, phase 1 is a pure map. -/
theorem phase1_nocreate (rs : List Rec) (g : GraphState)
    (hgood : ∀ r ∈ rs, goodRec r = true)
    (hpres : ∀ r ∈ rs, g.nodes.any (fun n => matchedBy n r) = true) :
    phase1 g rs = { g with nodes := g.nodes.map (trans1 rs) } := by
  induction rs generalizing g with
  | nil =>
    show g = _
    rw [trans1_nil_map]
  | cons r rs' ih =>
    obtain ⟨⟨eid, hid⟩, hname, hex, _⟩ := goodRec_parts r (hgood r (List.mem_cons_self _ _))
    have hgood' : ∀ r' ∈ rs', goodRec r' = true :=
      fun r' h' => hgood r' (List.mem_cons_of_mem _ h')
    have hmatch : g.nodes.any (isEmpWithId eid) = true := by
      rw [← any_matchedBy_eq g.nodes r eid hid]
      exact hpres r (List.mem_cons_self _ _)
    have hstep : phase1 g (r :: rs') = phase1 (step1 g r) rs' := rfl
    rw [hstep, step1_eq_match g r eid hid hmatch]
    have hpres' : ∀ r' ∈ rs',
        ({ g with nodes := g.nodes.map (upd1 r eid) } : GraphState).nodes.any
          (fun n => matchedBy n r') = true := by
      intro r' h'
      show (g.nodes.map (upd1 r eid)).any (fun n => matchedBy n r') = true
      rw [List.any_map]
      have hcg : ∀ n ∈ g.nodes,
          ((fun n => matchedBy n r') ∘ upd1 r eid) n = (fun n => matchedBy n r') n :=
        fun n _ => matchedBy_upd1 r eid hex n r'
      rw [list_any_congr _ _ _ hcg]
      exact hpres r' (List.mem_cons_of_mem _ h')
    rw [ih _ hgood' hpres']
    show ({ g with nodes := (g.nodes.map (upd1 r eid)).map (trans1 rs') } : GraphState) = _
    rw [List.map_map]
    have hcg : g.nodes.map (trans1 rs' ∘ upd1 r eid) = g.nodes.map (trans1 (r :: rs')) := by
      apply List.map_congr_left
      intro n _
      exact trans1_upd1 r eid hid hex rs' n
    rw [hcg]

theorem step1_pres_establish (g : GraphState) (r : Rec) (eid : String)
    (hid : r.empId = some eid) (hex : ∀ kv ∈ r.extra, kv.1 ≠ "empId") :
    (step1 g r).nodes.any (fun n => matchedBy n r) = true := by
  by_cases hmatch : g.nodes.any (isEmpWithId eid) = true
  · rw [step1_eq_match g r eid hid hmatch]
    obtain ⟨n, hn, hmn⟩ := List.any_eq_true.mp hmatch
    apply List.any_eq_true.mpr
    refine ⟨upd1 r eid n, List.mem_map_of_mem _ hn, ?_⟩
    rw [matchedBy_upd1 r eid hex n r]
    unfold matchedBy
    rw [hid]
    exact hmn
  · rw [step1_eq_create g r eid hid hmatch]
    apply List.any_eq_true.mpr
    refine ⟨⟨g.nextId, NLabel.employee, createProps r eid⟩, ?_, ?_⟩
    · simp
    · unfold matchedBy
      rw [hid]
      exact (isEmpWithId_eq eid _).mpr ⟨rfl, createProps_empId r eid hex⟩

theorem step1_pres_mono (g : GraphState) (r' r : Rec)
    (hgood' : goodRec r' = true)
    (h : g.nodes.any (fun n => matchedBy n r) = true) :
    (step1 g r').nodes.any (fun n => matchedBy n r) = true := by
  obtain ⟨⟨eid', hid'⟩, _, hex', _⟩ := goodRec_parts r' hgood'
  by_cases hmatch : g.nodes.any (isEmpWithId eid') = true
  · rw [step1_eq_match g r' eid' hid' hmatch]
    show (g.nodes.map (upd1 r' eid')).any (fun n => matchedBy n r) = true
    rw [List.any_map]
    have hcg : ∀ n ∈ g.nodes,
        ((fun n => matchedBy n r) ∘ upd1 r' eid') n = (fun n => matchedBy n r) n :=
      fun n _ => matchedBy_upd1 r' eid' hex' n r
    rw [list_any_congr _ _ _ hcg]
    exact h
  · rw [step1_eq_create g r' eid' hid' hmatch]
    show (g.nodes ++ [_]).any (fun n => matchedBy n r) = true
    exact any_append_left _ _ _ h

/-- After phase 1, every batch record has at least one bound node. -/
theorem phase1_presence (rs : List Rec) (g : GraphState)
    (hgood : ∀ r ∈ rs, goodRec r = true) :
    ∀ r ∈ rs, (phase1 g rs).nodes.any (fun n => matchedBy n r) = true := by
  induction rs generalizing g with
  | nil => intro r h; simp at h
  | cons r0 rs' ih =>
    intro r hr
    have hgood' : ∀ r' ∈ rs', goodRec r' = true :=
      fun r' h' => hgood r' (List.mem_cons_of_mem _ h')
    have hfold : ∀ (rs2 : List Rec), (∀ r' ∈ rs2, goodRec r' = true) →
        ∀ (g2 : GraphState), g2.nodes.any (fun n => matchedBy n r) = true →
        (phase1 g2 rs2).nodes.any (fun n => matchedBy n r) = true := by
      intro rs2
      induction rs2 with
      | nil => intro _ g2 h2; exact h2
      | cons a t iht =>
        intro hg2 g2 h2
        exact iht (fun x hx => hg2 x (List.mem_cons_of_mem _ hx)) (step1 g2 a)
          (step1_pres_mono g2 a r (hg2 a (List.mem_cons_self _ _)) h2)
    rcases List.mem_cons.mp hr with h0 | h0
    · subst h0
      obtain ⟨⟨eid, hid⟩, _, hex, _⟩ := goodRec_parts r (hgood r (List.mem_cons_self _ _))
      exact hfold rs' hgood' (step1 g r) (step1_pres_establish g r eid hid hex)
    · exact ih (step1 g r0) hgood' r h0

/-! ### Phases 2-5 only append nodes no canonical record can bind -/

/-- A node that no canonical batch record's phase-1 merge can bind: it is not
    an Employee, or its `empId` is a synthetic stub id. -/
def NonBatchNode (m : GNode) : Prop :=
  m.label ≠ NLabel.employee ∨ ∃ sid, empIdOf m = some sid ∧ hasStubStart sid = true

/-- The node list only grows, and only by non-batch nodes. -/
def NodesExtend (g g' : GraphState) : Prop :=
  ∃ sfx, g'.nodes = g.nodes ++ sfx ∧ ∀ m ∈ sfx, NonBatchNode m

theorem nodesExtend_refl (g : GraphState) : NodesExtend g g :=
  ⟨[], (List.append_nil _).symm, by simp⟩

theorem nodesExtend_of_eq {g g' : GraphState} (h : g'.nodes = g.nodes) : NodesExtend g g' :=
  ⟨[], by rw [h, List.append_nil], by simp⟩

theorem nodesExtend_trans {g h k : GraphState}
    (h1 : NodesExtend g h) (h2 : NodesExtend h k) : NodesExtend g k := by
  obtain ⟨s1, e1, a1⟩ := h1
  obtain ⟨s2, e2, a2⟩ := h2
  refine ⟨s1 ++ s2, ?_, ?_⟩
  · rw [e2, e1, List.append_assoc]
  · intro m hm
    rcases List.mem_append.mp hm with h | h
    · exact a1 m h
    · exact a2 m h

theorem nodesExtend_foldl {α : Type} (f : GraphState → α → GraphState)
    (hf : ∀ h a, NodesExtend h (f h a)) (g : GraphState) (l : List α) :
    NodesExtend g (l.foldl f g) := by
  induction l generalizing g with
  | nil => exact nodesExtend_refl g
  | cons a rest ih => exact nodesExtend_trans (hf g a) (ih (f g a))

theorem mergeSkillEdge_nodes (g : GraphState) (s d : Nat) (ty : String) :
    (mergeSkillEdge g s d ty).nodes = g.nodes := by
  unfold mergeSkillEdge
  by_cases h : skillEdgeExists g s d ty = true <;> simp [h]

theorem mergeSkillEdge_nextId (g : GraphState) (s d : Nat) (ty : String) :
    (mergeSkillEdge g s d ty).nextId = g.nextId := by
  unfold mergeSkillEdge
  by_cases h : skillEdgeExists g s d ty = true <;> simp [h]

theorem worksOnUpd_nodes (g : GraphState) (s d : Nat) (x : Option String) :
    (worksOnUpd g s d x).nodes = g.nodes := by
  unfold worksOnUpd
  by_cases h : (g.edges.any fun e => e.src == s && e.dst == d && e.typ == EType.worksOn) = true <;>
    simp [h]

theorem worksOnUpd_nextId (g : GraphState) (s d : Nat) (x : Option String) :
    (worksOnUpd g s d x).nextId = g.nextId := by
  unfold worksOnUpd
  by_cases h : (g.edges.any fun e => e.src == s && e.dst == d && e.typ == EType.worksOn) = true <;>
    simp [h]

theorem nodesExtend_ensureLink (lb : NLabel) (nm : String) (cprops : PropMap)
    (link : GraphState → Nat → Nat → GraphState)
    (hLn : ∀ h s d, (link h s d).nodes = h.nodes)
    (hnb : ∀ k : Nat, NonBatchNode ⟨k, lb, cprops⟩)
    (h : GraphState) (src : Nat) :
    NodesExtend h (ensureLink lb nm cprops link h src) := by
  unfold ensureLink
  by_cases hms : (h.nodes.filter (isLabeledNamed lb nm)).isEmpty
  · simp only [hms, if_true]
    refine ⟨[⟨h.nextId, lb, cprops⟩], ?_, ?_⟩
    · rw [hLn]
    · intro m hm
      rw [List.mem_singleton] at hm
      subst hm
      exact hnb h.nextId
  · simp only [hms, if_false]
    apply nodesExtend_foldl
    intro h2 mn
    exact nodesExtend_of_eq (hLn h2 src mn.nid)

theorem nodesExtend_step2 (g : GraphState) (r : Rec) : NodesExtend g (step2 g r) := by
  unfold step2
  cases r.empId with
  | none => exact nodesExtend_refl g
  | some eid =>
    cases r.team with
    | none => exact nodesExtend_refl g
    | some t =>
      by_cases ht : t = ""
      · simp only [ht, if_pos rfl]
        exact nodesExtend_refl g
      · simp only [ht, if_neg ht]
        apply nodesExtend_foldl
        intro h e
        unfold teamLinkBody
        exact nodesExtend_ensureLink _ _ _ _
          (fun h2 s d => mergeEdge_nodes h2 s d EType.worksIn)
          (fun k => Or.inl (by simp)) h e.nid

theorem nodesExtend_stepRef (mk : String → String → String) (ety : EType)
    (refOf : Rec → Option String)
    (hmk : ∀ e m, hasStubStart (mk e m) = true)
    (g : GraphState) (r : Rec) : NodesExtend g (stepRef mk ety refOf g r) := by
  unfold stepRef
  cases r.empId with
  | none => exact nodesExtend_refl g
  | some eid =>
    cases refOf r with
    | none => exact nodesExtend_refl g
    | some m =>
      by_cases hm : m = ""
      · simp only [hm, if_pos rfl]
        exact nodesExtend_refl g
      · simp only [if_neg hm]
        apply nodesExtend_foldl
        intro h e
        unfold refFoldBody
        refine nodesExtend_ensureLink _ _ _ _
          (fun h2 s d => mergeEdge_nodes h2 s d ety) ?_ h e.nid
        intro k
        refine Or.inr ⟨mk eid m, ?_, hmk eid m⟩
        simp [empIdOf, getP]

theorem nodesExtend_step4 (g : GraphState) (r : Rec) : NodesExtend g (step4 g r) := by
  unfold step4
  cases r.empId with
  | none => exact nodesExtend_refl g
  | some eid =>
    apply nodesExtend_foldl
    intro h e
    unfold skillBody
    have h1 : NodesExtend h
        (match r.primarySkill with
         | some p => mergeSkillFor h e.nid p "primary"
         | none => h) := by
      cases r.primarySkill with
      | none => exact nodesExtend_refl h
      | some p =>
        unfold mergeSkillFor
        exact nodesExtend_ensureLink _ _ _ _
          (fun h2 s d => mergeSkillEdge_nodes h2 s d "primary")
          (fun k => Or.inl (by simp)) h e.nid
    refine nodesExtend_trans h1 ?_
    cases r.secondarySkill with
    | none => exact nodesExtend_refl _
    | some q =>
      unfold mergeSkillFor
      exact nodesExtend_ensureLink _ _ _ _
        (fun h2 s d => mergeSkillEdge_nodes h2 s d "secondary")
        (fun k => Or.inl (by simp)) _ e.nid

theorem nodesExtend_step5 (g : GraphState) (r : Rec) : NodesExtend g (step5 g r) := by
  unfold step5
  cases r.empId with
  | none => exact nodesExtend_refl g
  | some eid =>
    cases r.project with
    | none => exact nodesExtend_refl g
    | some p =>
      by_cases hp : p = ""
      · simp only [hp, if_pos rfl]
        exact nodesExtend_refl g
      · simp only [if_neg hp]
        apply nodesExtend_foldl
        intro h e
        unfold projLinkBody
        exact nodesExtend_ensureLink _ _ _ _
          (fun h2 s d => worksOnUpd_nodes h2 s d r.doj)
          (fun k => Or.inl (by simp)) h e.nid

/-- The composite of phases 2-5 only appends non-batch nodes. -/
theorem nodesExtend_phases25 (g : GraphState) (rs : List Rec) :
    NodesExtend g (phase5 (phase4 (phase3L (phase3M (phase2 g rs) rs) rs) rs) rs) := by
  refine nodesExtend_trans (nodesExtend_foldl step2 nodesExtend_step2 g rs) ?_
  refine nodesExtend_trans (nodesExtend_foldl step3M
    (nodesExtend_stepRef stubManagerId EType.reportsTo _ hasStubStart_stubManagerId) _ rs) ?_
  refine nodesExtend_trans (nodesExtend_foldl step3L
    (nodesExtend_stepRef stubLeadId EType.leadReporting _ hasStubStart_stubLeadId) _ rs) ?_
  exact nodesExtend_trans (nodesExtend_foldl step4 nodesExtend_step4 _ rs)
    (nodesExtend_foldl step5 nodesExtend_step5 _ rs)

/-- A canonical record never binds a non-batch node. -/
theorem nonbatch_not_matched (r : Rec) (hgood : goodRec r = true) (m : GNode)
    (h : NonBatchNode m) : matchedBy m r = false := by
  obtain ⟨⟨eid, hid⟩, _, _, hnostub⟩ := goodRec_parts r hgood
  unfold matchedBy
  rw [hid]
  show isEmpWithId eid m = false
  cases hiw : isEmpWithId eid m with
  | false => rfl
  | true =>
    exfalso
    obtain ⟨hlab, hgp⟩ := (isEmpWithId_eq eid m).mp hiw
    rcases h with h | ⟨sid, hsid, hstub⟩
    · exact h hlab
    · unfold empIdOf at hsid
      rw [hgp] at hsid
      injection hsid with he
      rw [← he] at hstub
      rw [hnostub eid hid] at hstub
      cases hstub

theorem matchedRecs_nonbatch (rs : List Rec) (hgood : ∀ r ∈ rs, goodRec r = true)
    (m : GNode) (h : NonBatchNode m) : matchedRecs rs m = [] := by
  unfold matchedRecs
  induction rs with
  | nil => rfl
  | cons a t ih =>
    rw [List.filter_cons]
    have ha : matchedBy m a = false :=
      nonbatch_not_matched a (hgood a (List.mem_cons_self _ _)) m h
    simp only [ha, Bool.false_eq_true, if_false]
    exact ih (fun r hr => hgood r (List.mem_cons_of_mem _ hr))

/-- Presence of a bound node survives any node-list extension. -/
theorem presence_extend (g g' : GraphState) (h : NodesExtend g g') (r : Rec)
    (hp : g.nodes.any (fun n => matchedBy n r) = true) :
    g'.nodes.any (fun n => matchedBy n r) = true := by
  obtain ⟨sfx, he, _⟩ := h
  rw [he]
  exact any_append_left _ _ _ hp

/-! ### Extensional state equality and phase-1 absorption -/

def PropsEq (p q : PropMap) : Prop := ∀ k, getP p k = getP q k

def NodeEquiv (n m : GNode) : Prop :=
  n.nid = m.nid ∧ n.label = m.label ∧ PropsEq n.props m.props

/-- Extensional equality of graph states: node lists agree pointwise up to
    property-map extensionality; edges and the id counter agree exactly. -/
def StateEq (g h : GraphState) : Prop :=
  List.Forall₂ NodeEquiv g.nodes h.nodes ∧ g.edges = h.edges ∧ g.nextId = h.nextId

theorem nodeEquiv_refl (n : GNode) : NodeEquiv n n := ⟨rfl, rfl, fun _ => rfl⟩

theorem stateEq_refl (g : GraphState) : StateEq g g :=
  ⟨List.forall₂_same.mpr (fun n _ => nodeEquiv_refl n), rfl, rfl⟩

theorem forall2_map_left {α : Type} (R : α → α → Prop) (f : α → α) (l : List α)
    (h : ∀ x ∈ l, R (f x) x) : List.Forall₂ R (l.map f) l := by
  induction l with
  | nil => exact List.Forall₂.nil
  | cons a t ih =>
    rw [List.map_cons]
    exact List.Forall₂.cons (h a (List.mem_cons_self _ _))
      (ih (fun x hx => h x (List.mem_cons_of_mem _ hx)))

/-- Replaying the whole batch against a node it already transformed returns
    the same properties. -/
theorem trans1_absorb (rs : List Rec) (hgood : ∀ r ∈ rs, goodRec r = true)
    (n0 : GNode) : NodeEquiv (trans1 rs (trans1 rs n0)) (trans1 rs n0) := by
  have hmr : matchedRecs rs (trans1 rs n0) = matchedRecs rs n0 := by
    unfold matchedRecs
    apply List.filter_congr
    intro r' _
    show matchedBy (trans1 rs n0) r' = matchedBy n0 r'
    exact matchedBy_phiFold (matchedRecs rs n0)
      (fun r1 h1 => (goodRec_parts r1 (hgood r1 (List.mem_of_mem_filter h1))).2.2.1)
      n0 n0.props r'
  refine ⟨rfl, rfl, ?_⟩
  intro k
  show getP (phiFold (matchedRecs rs (trans1 rs n0)) (trans1 rs n0).props) k =
    getP (trans1 rs n0).props k
  rw [hmr]
  show getP (phiFold (matchedRecs rs n0) (phiFold (matchedRecs rs n0) n0.props)) k =
    getP (phiFold (matchedRecs rs n0) n0.props) k
  rw [getP_phiFold, getP_phiFold]
  exact phiChain_absorb _ k _

/-- Replaying the whole batch against a node created during phase 1 returns
    the same properties. -/
theorem newnode_absorb (rs : List Rec) (hgood : ∀ r ∈ rs, goodRec r = true)
    (g : GraphState) (m : GNode) (hok : NewNodeOK rs g m) :
    NodeEquiv (trans1 rs m) m := by
  obtain ⟨r0, rest, eid0, hid0, hmr, hprops, _⟩ := hok
  have hr0 : r0 ∈ rs := matchedRecs_head_mem rs m r0 rest hmr
  have hname : r0.name.isSome = true := (goodRec_parts r0 (hgood r0 hr0)).2.1
  refine ⟨rfl, rfl, ?_⟩
  intro k
  show getP (phiFold (matchedRecs rs m) m.props) k = getP m.props k
  rw [hmr, hprops, getP_phiFold, getP_phiFold, createProps_getP]
  exact phiChain_absorb_create r0 rest eid0 k hname

theorem nonbatch_absorb (rs : List Rec) (hgood : ∀ r ∈ rs, goodRec r = true)
    (m : GNode) (h : NonBatchNode m) : NodeEquiv (trans1 rs m) m := by
  refine ⟨rfl, rfl, ?_⟩
  intro k
  show getP (phiFold (matchedRecs rs m) m.props) k = getP m.props k
  rw [matchedRecs_nonbatch rs hgood m h]
  rfl

/-- Re-running phase 1 over any extension of a completed pass is
    extensionally the identity. -/
theorem phase1_absorb (g G5 : GraphState) (rs : List Rec)
    (hgood : ∀ r ∈ rs, goodRec r = true)
    (hext : NodesExtend (phase1 g rs) G5) :
    StateEq (phase1 G5 rs) G5 := by
  have hpres : ∀ r ∈ rs, G5.nodes.any (fun n => matchedBy n r) = true := by
    intro r hr
    exact presence_extend _ _ hext r (phase1_presence rs g hgood r hr)
  rw [phase1_nocreate rs G5 hgood hpres]
  refine ⟨?_, rfl, rfl⟩
  show List.Forall₂ NodeEquiv (G5.nodes.map (trans1 rs)) G5.nodes
  apply forall2_map_left
  intro n hn
  obtain ⟨sfx, hsfx, hnb⟩ := hext
  rw [hsfx] at hn
  rcases List.mem_append.mp hn with hn1 | hn1
  · obtain ⟨new, hnodes, _, hok⟩ := phase1_structure rs g hgood
    rw [hnodes] at hn1
    rcases List.mem_append.mp hn1 with hn2 | hn2
    · obtain ⟨n0, _, hn0⟩ := List.mem_map.mp hn2
      rw [← hn0]
      exact trans1_absorb rs hgood n0
    · exact newnode_absorb rs hgood g n (hok n hn2)
  · exact nonbatch_absorb rs hgood n (hnb n hn1)

/-! ### The pass-1 preservation relation -/

theorem ne_nil_isEmpty_false {α : Type} (l : List α) (h : l ≠ []) : l.isEmpty = false := by
  cases l with
  | nil => exact absurd rfl h
  | cons a t => rfl

theorem isEmpty_true_eq_nil {α : Type} (l : List α) (h : l.isEmpty = true) : l = [] := by
  cases l with
  | nil => rfl
  | cons a t => cases h

theorem filter_append_single_false {α : Type} (l : List α) (a : α) (p : α → Bool)
    (h : p a = false) : (l ++ [a]).filter p = l.filter p := by
  rw [List.filter_append]
  simp [List.filter, h]

/-- A non-batch node never matches a non-synthetic employee id. -/
theorem nonbatch_not_empMatch (m : GNode) (h : NonBatchNode m) (eid : String)
    (hstub : hasStubStart eid = false) : isEmpWithId eid m = false := by
  cases hiw : isEmpWithId eid m with
  | false => rfl
  | true =>
    exfalso
    obtain ⟨hlab, hgp⟩ := (isEmpWithId_eq eid m).mp hiw
    rcases h with h | ⟨sid, hsid, hsb⟩
    · exact h hlab
    · unfold empIdOf at hsid
      rw [hgp] at hsid
      injection hsid with he
      rw [← he] at hsb
      rw [hstub] at hsb
      cases hsb

/-- What pass-1 steps after a phase's establishment may do to the state: nodes
    only grow, a non-empty named-node set and the non-synthetic employee
    matches are frozen, merged relationships persist, and a null `since` on a
    pre-existing `WORKS_ON` pair traces back. -/
def Pres (S S' : GraphState) : Prop :=
  (∃ sfx, S'.nodes = S.nodes ++ sfx) ∧
  (∀ lb nm, S.nodes.filter (isLabeledNamed lb nm) ≠ [] →
    S'.nodes.filter (isLabeledNamed lb nm) = S.nodes.filter (isLabeledNamed lb nm)) ∧
  (∀ eid, hasStubStart eid = false → empMatches S' eid = empMatches S eid) ∧
  (∀ s d t, edgeExists S s d t = true → edgeExists S' s d t = true) ∧
  (∀ s d ty, skillEdgeExists S s d ty = true → skillEdgeExists S' s d ty = true) ∧
  (∀ s d, edgeExists S s d EType.worksOn = true →
    ∀ ed ∈ S'.edges, ed.src = s → ed.dst = d → ed.typ = EType.worksOn →
      getP ed.props "since" = none →
      ∃ ed0 ∈ S.edges, ed0.src = s ∧ ed0.dst = d ∧ ed0.typ = EType.worksOn ∧
        getP ed0.props "since" = none)

theorem pres_refl (g : GraphState) : Pres g g := by
  refine ⟨⟨[], (List.append_nil _).symm⟩, fun lb nm _ => rfl, fun eid _ => rfl,
    fun s d t h => h, fun s d ty h => h, ?_⟩
  intro s d hex ed hed hs hd ht hn
  exact ⟨ed, hed, hs, hd, ht, hn⟩

theorem pres_trans {S S' S'' : GraphState} (h1 : Pres S S') (h2 : Pres S' S'') :
    Pres S S'' := by
  obtain ⟨⟨s1, e1⟩, b1, c1, d1, k1, f1⟩ := h1
  obtain ⟨⟨s2, e2⟩, b2, c2, d2, k2, f2⟩ := h2
  refine ⟨⟨s1 ++ s2, ?_⟩, ?_, ?_, ?_, ?_, ?_⟩
  · rw [e2, e1, List.append_assoc]
  · intro lb nm hne
    have hmid : S'.nodes.filter (isLabeledNamed lb nm) ≠ [] := by
      rw [b1 lb nm hne]
      exact hne
    rw [b2 lb nm hmid, b1 lb nm hne]
  · intro eid h
    rw [c2 eid h, c1 eid h]
  · intro s d t h
    exact d2 s d t (d1 s d t h)
  · intro s d ty h
    exact k2 s d ty (k1 s d ty h)
  · intro s d hex ed hed hs hd ht hn
    obtain ⟨ed1, hed1, hs1, hd1, ht1, hn1⟩ :=
      f2 s d (d1 s d EType.worksOn hex) ed hed hs hd ht hn
    exact f1 s d hex ed1 hed1 hs1 hd1 ht1 hn1

theorem pres_foldl {α : Type} (f : GraphState → α → GraphState)
    (hf : ∀ h a, Pres h (f h a)) (g : GraphState) (l : List α) :
    Pres g (l.foldl f g) := by
  induction l generalizing g with
  | nil => exact pres_refl g
  | cons a rest ih => exact pres_trans (hf g a) (ih (f g a))

theorem pres_mergeEdge (g : GraphState) (s' d' : Nat) (t' : EType) :
    Pres g (mergeEdge g s' d' t') := by
  unfold mergeEdge
  by_cases hc : edgeExists g s' d' t' = true
  · rw [if_pos hc]
    exact pres_refl g
  · rw [if_neg hc]
    refine ⟨⟨[], (List.append_nil _).symm⟩, fun lb nm _ => rfl, fun eid _ => rfl, ?_, ?_, ?_⟩
    · intro s d t h
      show ((g.edges ++ [(⟨s', d', t', []⟩ : GEdge)]).any
        fun e => e.src == s && e.dst == d && e.typ == t) = true
      exact any_append_left _ _ _ h
    · intro s d ty h
      show ((g.edges ++ [(⟨s', d', t', []⟩ : GEdge)]).any fun e =>
        e.src == s && e.dst == d && e.typ == EType.hasSkill &&
          getP e.props "type" == some ty) = true
      exact any_append_left _ _ _ h
    · intro s d hex ed hed hs hd ht hn
      rcases List.mem_append.mp hed with h1 | h1
      · exact ⟨ed, h1, hs, hd, ht, hn⟩
      · rw [List.mem_singleton] at h1
        subst h1
        exfalso
        apply hc
        rw [← hs, ← hd, ← ht] at hex
        exact hex

theorem pres_mergeSkillEdge (g : GraphState) (s' d' : Nat) (ty' : String) :
    Pres g (mergeSkillEdge g s' d' ty') := by
  unfold mergeSkillEdge
  by_cases hc : skillEdgeExists g s' d' ty' = true
  · rw [if_pos hc]
    exact pres_refl g
  · rw [if_neg hc]
    refine ⟨⟨[], (List.append_nil _).symm⟩, fun lb nm _ => rfl, fun eid _ => rfl, ?_, ?_, ?_⟩
    · intro s d t h
      show ((g.edges ++ [(⟨s', d', EType.hasSkill, [("type", ty')]⟩ : GEdge)]).any
        fun e => e.src == s && e.dst == d && e.typ == t) = true
      exact any_append_left _ _ _ h
    · intro s d ty h
      show ((g.edges ++ [(⟨s', d', EType.hasSkill, [("type", ty')]⟩ : GEdge)]).any fun e =>
        e.src == s && e.dst == d && e.typ == EType.hasSkill &&
          getP e.props "type" == some ty) = true
      exact any_append_left _ _ _ h
    · intro s d hex ed hed hs hd ht hn
      rcases List.mem_append.mp hed with h1 | h1
      · exact ⟨ed, h1, hs, hd, ht, hn⟩
      · rw [List.mem_singleton] at h1
        subst h1
        have ht' : EType.hasSkill = EType.worksOn := ht
        exact absurd ht' (by decide)

theorem pres_worksOnUpd (g : GraphState) (s' d' : Nat) (x : Option String) :
    Pres g (worksOnUpd g s' d' x) := by
  unfold worksOnUpd
  by_cases hc : (g.edges.any fun e => e.src == s' && e.dst == d' && e.typ == EType.worksOn) = true
  · rw [if_pos hc]
    refine ⟨⟨[], (List.append_nil _).symm⟩, fun lb nm _ => rfl, fun eid _ => rfl, ?_, ?_, ?_⟩
    · intro s d t h
      obtain ⟨ed, hed, hp⟩ := List.any_eq_true.mp h
      apply List.any_eq_true.mpr
      refine ⟨if ed.src == s' && ed.dst == d' && ed.typ == EType.worksOn then
        { ed with props := setP ed.props "since" (coalesce (getP ed.props "since") x) }
        else ed, List.mem_map_of_mem _ hed, ?_⟩
      by_cases hm : (ed.src == s' && ed.dst == d' && ed.typ == EType.worksOn) = true
      · rw [if_pos hm]
        exact hp
      · rw [if_neg hm]
        exact hp
    · intro s d ty h
      obtain ⟨ed, hed, hp⟩ := List.any_eq_true.mp h
      apply List.any_eq_true.mpr
      by_cases hm : (ed.src == s' && ed.dst == d' && ed.typ == EType.worksOn) = true
      · exfalso
        have h1 : ed.typ = EType.worksOn := by
          have := hm
          simp only [Bool.and_eq_true, beq_iff_eq] at this
          exact this.2
        have h2 : ed.typ = EType.hasSkill := by
          have := hp
          simp only [Bool.and_eq_true, beq_iff_eq] at this
          exact this.1.2
        rw [h1] at h2
        exact absurd h2 (by decide)
      · refine ⟨if ed.src == s' && ed.dst == d' && ed.typ == EType.worksOn then
          { ed with props := setP ed.props "since" (coalesce (getP ed.props "since") x) }
          else ed, List.mem_map_of_mem _ hed, ?_⟩
        rw [if_neg hm]
        exact hp
    · intro s d hex ed2 hed2 hs hd ht hn
      obtain ⟨ed, hed, hfe⟩ := List.mem_map.mp hed2
      by_cases hm : (ed.src == s' && ed.dst == d' && ed.typ == EType.worksOn) = true
      · rw [if_pos hm] at hfe
        subst hfe
        have hcoal : coalesce (getP ed.props "since") x = none := by
          rw [getP_setP] at hn
          simpa using hn
        have hcur : getP ed.props "since" = none := by
          cases hcur : getP ed.props "since" with
          | none => rfl
          | some v =>
            rw [hcur] at hcoal
            exact absurd hcoal (by simp [coalesce])
        exact ⟨ed, hed, hs, hd, ht, hcur⟩
      · rw [if_neg hm] at hfe
        subst hfe
        exact ⟨ed, hed, hs, hd, ht, hn⟩
  · rw [if_neg hc]
    refine ⟨⟨[], (List.append_nil _).symm⟩, fun lb nm _ => rfl, fun eid _ => rfl, ?_, ?_, ?_⟩
    · intro s d t h
      show ((g.edges ++ [(⟨s', d', EType.worksOn, setP [] "since" x⟩ : GEdge)]).any
        fun e => e.src == s && e.dst == d && e.typ == t) = true
      exact any_append_left _ _ _ h
    · intro s d ty h
      show ((g.edges ++ [(⟨s', d', EType.worksOn, setP [] "since" x⟩ : GEdge)]).any fun e =>
        e.src == s && e.dst == d && e.typ == EType.hasSkill &&
          getP e.props "type" == some ty) = true
      exact any_append_left _ _ _ h
    · intro s d hex ed hed hs hd ht hn
      rcases List.mem_append.mp hed with h1 | h1
      · exact ⟨ed, h1, hs, hd, ht, hn⟩
      · rw [List.mem_singleton] at h1
        subst h1
        exfalso
        apply hc
        rw [← hs, ← hd] at hex
        exact hex

/-- Appending a fresh named non-batch node preserves everything `Pres` tracks. -/
theorem pres_append_node (h : GraphState) (lb : NLabel) (nm : String) (cprops : PropMap)
    (hcn : getP cprops "name" = some nm)
    (hnb : ∀ k : Nat, NonBatchNode ⟨k, lb, cprops⟩)
    (hms : (h.nodes.filter (isLabeledNamed lb nm)).isEmpty = true) (x : Nat) :
    Pres h { h with nodes := h.nodes ++ [⟨x, lb, cprops⟩], nextId := h.nextId + 1 } := by
  refine ⟨⟨[⟨x, lb, cprops⟩], rfl⟩, ?_, ?_, fun s d t hh => hh, fun s d ty hh => hh, ?_⟩
  · intro lb' nm' hne
    show (h.nodes ++ [(⟨x, lb, cprops⟩ : GNode)]).filter (isLabeledNamed lb' nm') =
      h.nodes.filter (isLabeledNamed lb' nm')
    apply filter_append_single_false
    cases hq : isLabeledNamed lb' nm' ⟨x, lb, cprops⟩ with
    | false => rfl
    | true =>
      exfalso
      have hq2 := hq
      unfold isLabeledNamed at hq2
      simp only [Bool.and_eq_true, beq_iff_eq] at hq2
      obtain ⟨hl, hn2⟩ := hq2
      have hl' : lb = lb' := hl
      have hn2' : getP cprops "name" = some nm' := hn2
      rw [hcn] at hn2'
      injection hn2' with hn3
      rw [← hl', ← hn3] at hne
      rw [isEmpty_true_eq_nil _ hms] at hne
      exact hne rfl
  · intro eid hstub
    show (h.nodes ++ [(⟨x, lb, cprops⟩ : GNode)]).filter (isEmpWithId eid) =
      h.nodes.filter (isEmpWithId eid)
    exact filter_append_single_false _ _ _ (nonbatch_not_empMatch _ (hnb x) eid hstub)
  · intro s d hex ed hed hs hd ht hn
    exact ⟨ed, hed, hs, hd, ht, hn⟩

theorem pres_ensureLink (lb : NLabel) (nm : String) (cprops : PropMap)
    (link : GraphState → Nat → Nat → GraphState)
    (hLp : ∀ h s d, Pres h (link h s d))
    (hcn : getP cprops "name" = some nm)
    (hnb : ∀ k : Nat, NonBatchNode ⟨k, lb, cprops⟩)
    (h : GraphState) (src : Nat) :
    Pres h (ensureLink lb nm cprops link h src) := by
  unfold ensureLink
  by_cases hms : (h.nodes.filter (isLabeledNamed lb nm)).isEmpty
  · simp only [hms, if_true]
    exact pres_trans (pres_append_node h lb nm cprops hcn hnb hms h.nextId)
      (hLp _ src h.nextId)
  · simp only [hms, if_false]
    apply pres_foldl
    intro h2 mn
    exact hLp h2 src mn.nid

theorem pres_step2 (g : GraphState) (r : Rec) : Pres g (step2 g r) := by
  unfold step2
  cases r.empId with
  | none => exact pres_refl g
  | some eid =>
    cases r.team with
    | none => exact pres_refl g
    | some t =>
      by_cases ht : t = ""
      · simp only [ht, if_pos rfl]
        exact pres_refl g
      · simp only [ht, if_neg ht]
        apply pres_foldl
        intro h e
        unfold teamLinkBody
        exact pres_ensureLink _ _ _ _
          (fun h2 s d => pres_mergeEdge h2 s d EType.worksIn)
          (by simp [getP]) (fun k => Or.inl (by simp)) h e.nid

theorem pres_stepRef (mk : String → String → String) (ety : EType)
    (refOf : Rec → Option String)
    (hmk : ∀ e m, hasStubStart (mk e m) = true)
    (g : GraphState) (r : Rec) : Pres g (stepRef mk ety refOf g r) := by
  unfold stepRef
  cases r.empId with
  | none => exact pres_refl g
  | some eid =>
    cases refOf r with
    | none => exact pres_refl g
    | some m =>
      by_cases hm : m = ""
      · simp only [hm, if_pos rfl]
        exact pres_refl g
      · simp only [if_neg hm]
        apply pres_foldl
        intro h e
        unfold refFoldBody
        refine pres_ensureLink _ _ _ _
          (fun h2 s d => pres_mergeEdge h2 s d ety) (by simp [getP]) ?_ h e.nid
        intro k
        refine Or.inr ⟨mk eid m, ?_, hmk eid m⟩
        simp [empIdOf, getP]

theorem pres_step4 (g : GraphState) (r : Rec) : Pres g (step4 g r) := by
  unfold step4
  cases r.empId with
  | none => exact pres_refl g
  | some eid =>
    apply pres_foldl
    intro h e
    unfold skillBody
    have h1 : Pres h
        (match r.primarySkill with
         | some p => mergeSkillFor h e.nid p "primary"
         | none => h) := by
      cases r.primarySkill with
      | none => exact pres_refl h
      | some p =>
        unfold mergeSkillFor
        exact pres_ensureLink _ _ _ _
          (fun h2 s d => pres_mergeSkillEdge h2 s d "primary")
          (by simp [getP]) (fun k => Or.inl (by simp)) h e.nid
    refine pres_trans h1 ?_
    cases r.secondarySkill with
    | none => exact pres_refl _
    | some q =>
      unfold mergeSkillFor
      exact pres_ensureLink _ _ _ _
        (fun h2 s d => pres_mergeSkillEdge h2 s d "secondary")
        (by simp [getP]) (fun k => Or.inl (by simp)) _ e.nid

theorem pres_step5 (g : GraphState) (r : Rec) : Pres g (step5 g r) := by
  unfold step5
  cases r.empId with
  | none => exact pres_refl g
  | some eid =>
    cases r.project with
    | none => exact pres_refl g
    | some p =>
      by_cases hp : p = ""
      · simp only [hp, if_pos rfl]
        exact pres_refl g
      · simp only [if_neg hp]
        apply pres_foldl
        intro h e
        unfold projLinkBody
        exact pres_ensureLink _ _ _ _
          (fun h2 s d => pres_worksOnUpd h2 s d r.doj)
          (by simp [getP]) (fun k => Or.inl (by simp)) h e.nid

theorem pres_phase2 (g : GraphState) (rs : List Rec) : Pres g (phase2 g rs) :=
  pres_foldl step2 pres_step2 g rs

theorem pres_phase3M (g : GraphState) (rs : List Rec) : Pres g (phase3M g rs) :=
  pres_foldl step3M
    (pres_stepRef stubManagerId EType.reportsTo _ hasStubStart_stubManagerId) g rs

theorem pres_phase3L (g : GraphState) (rs : List Rec) : Pres g (phase3L g rs) :=
  pres_foldl step3L
    (pres_stepRef stubLeadId EType.leadReporting _ hasStubStart_stubLeadId) g rs

theorem pres_phase4 (g : GraphState) (rs : List Rec) : Pres g (phase4 g rs) :=
  pres_foldl step4 pres_step4 g rs

theorem pres_phase5 (g : GraphState) (rs : List Rec) : Pres g (phase5 g rs) :=
  pres_foldl step5 pres_step5 g rs

/-! ### Per-operation identity on an already-complete state -/

theorem mergeEdge_id (g : GraphState) (s d : Nat) (t : EType)
    (h : edgeExists g s d t = true) : mergeEdge g s d t = g := by
  unfold mergeEdge
  rw [if_pos h]

theorem mergeSkillEdge_id (g : GraphState) (s d : Nat) (ty : String)
    (h : skillEdgeExists g s d ty = true) : mergeSkillEdge g s d ty = g := by
  unfold mergeSkillEdge
  rw [if_pos h]

theorem map_fixed {α : Type} (l : List α) (f : α → α) (h : ∀ a ∈ l, f a = a) :
    l.map f = l := by
  induction l with
  | nil => rfl
  | cons a t ih =>
    rw [List.map_cons, h a (List.mem_cons_self _ _),
      ih (fun b hb => h b (List.mem_cons_of_mem a hb))]

/-- The phase-5 "done" predicate for a record whose incoming date is `x`: the
    `WORKS_ON` edge exists, and a null `since` on the pair forces `x` null. -/
def DWorks (x : Option String) (h : GraphState) (s d : Nat) : Prop :=
  edgeExists h s d EType.worksOn = true ∧
  (∀ ed ∈ h.edges, ed.src = s → ed.dst = d → ed.typ = EType.worksOn →
    getP ed.props "since" = none → x = none)

theorem dworks_edges (x : Option String) (g1 g2 : GraphState)
    (hE : g1.edges = g2.edges) (s d : Nat) (h : DWorks x g1 s d) : DWorks x g2 s d := by
  obtain ⟨h1, h2⟩ := h
  constructor
  · show (g2.edges.any fun e => e.src == s && e.dst == d && e.typ == EType.worksOn) = true
    rw [← hE]
    exact h1
  · intro ed hed
    exact h2 ed (by rw [hE]; exact hed)

theorem dworks_pres (x : Option String) {S S' : GraphState} (hp : Pres S S')
    (s d : Nat) (h : DWorks x S s d) : DWorks x S' s d := by
  obtain ⟨hex, hnull⟩ := h
  refine ⟨hp.2.2.2.1 s d EType.worksOn hex, ?_⟩
  intro ed hed hs hd ht hn
  obtain ⟨ed0, hed0, hs0, hd0, ht0, hn0⟩ := hp.2.2.2.2.2 s d hex ed hed hs hd ht hn
  exact hnull ed0 hed0 hs0 hd0 ht0 hn0

theorem worksOnUpd_id (g : GraphState) (s d : Nat) (x : Option String)
    (h : DWorks x g s d) : worksOnUpd g s d x = g := by
  obtain ⟨hex, hnull⟩ := h
  unfold worksOnUpd
  have hex' : (g.edges.any fun e => e.src == s && e.dst == d && e.typ == EType.worksOn) = true :=
    hex
  rw [if_pos hex']
  have hmap : (g.edges.map fun e =>
      if e.src == s && e.dst == d && e.typ == EType.worksOn then
        { e with props := setP e.props "since" (coalesce (getP e.props "since") x) }
      else e) = g.edges := by
    apply map_fixed
    intro ed hed
    by_cases hm : (ed.src == s && ed.dst == d && ed.typ == EType.worksOn) = true
    · rw [if_pos hm]
      have hm2 := hm
      simp only [Bool.and_eq_true, beq_iff_eq] at hm2
      obtain ⟨⟨hs, hd⟩, ht⟩ := hm2
      cases hcur : getP ed.props "since" with
      | some v =>
        show ({ ed with props := setPv ed.props "since" v } : GEdge) = ed
        rw [setPv_self ed.props "since" v hcur]
      | none =>
        have hx : x = none := hnull ed hed hs hd ht hcur
        rw [hx]
        show ({ ed with props := remP ed.props "since" } : GEdge) = ed
        rw [remP_absent ed.props "since" hcur]
    · rw [if_neg hm]
  rw [hmap]

theorem skillEdgeExists_mergeSkillEdge_self (g : GraphState) (s d : Nat) (ty : String) :
    skillEdgeExists (mergeSkillEdge g s d ty) s d ty = true := by
  unfold mergeSkillEdge
  by_cases hc : skillEdgeExists g s d ty = true
  · rw [if_pos hc]
    exact hc
  · rw [if_neg hc]
    show ((g.edges ++ [(⟨s, d, EType.hasSkill, [("type", ty)]⟩ : GEdge)]).any fun e =>
      e.src == s && e.dst == d && e.typ == EType.hasSkill &&
        getP e.props "type" == some ty) = true
    apply any_append_single
    simp [getP]

theorem skillEdgeExists_mergeSkillEdge_mono (g : GraphState) (s d : Nat) (ty : String)
    (s' d' : Nat) (ty' : String) (h : skillEdgeExists g s d ty = true) :
    skillEdgeExists (mergeSkillEdge g s' d' ty') s d ty = true := by
  unfold mergeSkillEdge
  by_cases hc : skillEdgeExists g s' d' ty' = true
  · rw [if_pos hc]
    exact h
  · rw [if_neg hc]
    show ((g.edges ++ [(⟨s', d', EType.hasSkill, [("type", ty')]⟩ : GEdge)]).any fun e =>
      e.src == s && e.dst == d && e.typ == EType.hasSkill &&
        getP e.props "type" == some ty) = true
    exact any_append_left _ _ _ h

theorem dworks_worksOnUpd_self (g : GraphState) (s d : Nat) (x : Option String) :
    DWorks x (worksOnUpd g s d x) s d := by
  unfold worksOnUpd
  by_cases hc : (g.edges.any fun e => e.src == s && e.dst == d && e.typ == EType.worksOn) = true
  · rw [if_pos hc]
    constructor
    · obtain ⟨ed, hed, hp⟩ := List.any_eq_true.mp hc
      apply List.any_eq_true.mpr
      refine ⟨if ed.src == s && ed.dst == d && ed.typ == EType.worksOn then
        { ed with props := setP ed.props "since" (coalesce (getP ed.props "since") x) }
        else ed, List.mem_map_of_mem _ hed, ?_⟩
      rw [if_pos hp]
      exact hp
    · intro ed2 hed2 hs hd ht hn
      obtain ⟨ed, hed, hfe⟩ := List.mem_map.mp hed2
      by_cases hm : (ed.src == s && ed.dst == d && ed.typ == EType.worksOn) = true
      · rw [if_pos hm] at hfe
        subst hfe
        rw [getP_setP] at hn
        simp only [if_pos rfl] at hn
        cases hcur : getP ed.props "since" with
        | some v =>
          rw [hcur] at hn
          exact absurd hn (by simp [coalesce])
        | none =>
          rw [hcur] at hn
          exact hn
      · rw [if_neg hm] at hfe
        subst hfe
        exfalso
        apply hm
        simp [hs, hd, ht]
  · rw [if_neg hc]
    constructor
    · show ((g.edges ++ [(⟨s, d, EType.worksOn, setP [] "since" x⟩ : GEdge)]).any fun e =>
        e.src == s && e.dst == d && e.typ == EType.worksOn) = true
      apply any_append_single
      simp
    · intro ed hed hs hd ht hn
      rcases List.mem_append.mp hed with h1 | h1
      · exfalso
        apply hc
        apply List.any_eq_true.mpr
        exact ⟨ed, h1, by simp [hs, hd, ht]⟩
      · rw [List.mem_singleton] at h1
        subst h1
        have hn2 : getP (setP ([] : PropMap) "since" x) "since" = none := hn
        rw [getP_setP, if_pos rfl] at hn2
        exact hn2

theorem ensureLink_id (lb : NLabel) (nm : String) (cprops : PropMap)
    (link : GraphState → Nat → Nat → GraphState)
    (D : GraphState → Nat → Nat → Prop)
    (hLi : ∀ h s d, D h s d → link h s d = h)
    (S : GraphState) (src : Nat)
    (hne : (S.nodes.filter (isLabeledNamed lb nm)).isEmpty = false)
    (hD : ∀ mn ∈ S.nodes.filter (isLabeledNamed lb nm), D S src mn.nid) :
    ensureLink lb nm cprops link S src = S := by
  have hne' : ¬ ((S.nodes.filter (isLabeledNamed lb nm)).isEmpty = true) := by
    rw [hne]
    simp
  unfold ensureLink
  rw [if_neg hne']
  apply foldl_fixed
  intro mn hmn
  exact hLi S src mn.nid (hD mn hmn)

/-! ### The per-row "ensured" state and its propagation -/

/-- The named target exists and the source is linked to every copy of it. -/
def Ensured (lb : NLabel) (nm : String) (D : GraphState → Nat → Nat → Prop)
    (S : GraphState) (src : Nat) : Prop :=
  S.nodes.filter (isLabeledNamed lb nm) ≠ [] ∧
  ∀ mn ∈ S.nodes.filter (isLabeledNamed lb nm), D S src mn.nid

theorem ensured_pres (lb : NLabel) (nm : String) (D : GraphState → Nat → Nat → Prop)
    {S S' : GraphState} (hp : Pres S S') (hDP : ∀ s d, D S s d → D S' s d) (src : Nat) :
    Ensured lb nm D S src → Ensured lb nm D S' src := by
  intro hens
  obtain ⟨hne, hall⟩ := hens
  refine ⟨?_, ?_⟩
  · rw [hp.2.1 lb nm hne]
    exact hne
  · intro mn hmn
    rw [hp.2.1 lb nm hne] at hmn
    exact hDP _ _ (hall mn hmn)

theorem ensured_fold_pres {α : Type} (lb : NLabel) (nm : String)
    (D : GraphState → Nat → Nat → Prop) (f : GraphState → α → GraphState)
    (hf : ∀ h a, Pres h (f h a))
    (hDP : ∀ (h : GraphState) (a : α) (s d : Nat), D h s d → D (f h a) s d)
    (l : List α) (S : GraphState) (src : Nat)
    (h : Ensured lb nm D S src) : Ensured lb nm D (l.foldl f S) src := by
  induction l generalizing S with
  | nil => exact h
  | cons a rest ih =>
    exact ih (f S a) (ensured_pres lb nm D (hf S a) (hDP S a) src h)

/-- One `ensureLink` leaves its own source ensured. -/
theorem ensureLink_ensured (lb : NLabel) (nm : String) (cprops : PropMap)
    (link : GraphState → Nat → Nat → GraphState)
    (D : GraphState → Nat → Nat → Prop)
    (hDE : ∀ g1 g2 : GraphState, g1.edges = g2.edges → ∀ s d, D g1 s d → D g2 s d)
    (hLn : ∀ h s d, (link h s d).nodes = h.nodes)
    (hLx : ∀ h s d, (link h s d).nextId = h.nextId)
    (hLd : ∀ h s d, D (link h s d) s d)
    (hLm : ∀ h s d s' d', D h s d → D (link h s' d') s d)
    (hmk : ∀ k : Nat, isLabeledNamed lb nm ⟨k, lb, cprops⟩ = true)
    (S : GraphState) (src : Nat) :
    Ensured lb nm D (ensureLink lb nm cprops link S src) src := by
  by_cases hms : (S.nodes.filter (isLabeledNamed lb nm)).isEmpty
  · have hnone : S.nodes.filter (isLabeledNamed lb nm) = [] := isEmpty_true_eq_nil _ hms
    obtain ⟨c1, c2, c3, c4⟩ :=
      ensureLink_creates lb nm cprops link D hDE hLn hLx hLd hLm S src hnone
    have hfilter : (ensureLink lb nm cprops link S src).nodes.filter
        (isLabeledNamed lb nm) = [⟨S.nextId, lb, cprops⟩] := by
      rw [c1, List.filter_append, hnone, List.nil_append]
      simp [List.filter, hmk]
    refine ⟨by rw [hfilter]; simp, ?_⟩
    intro mn hmn
    rw [hfilter, List.mem_singleton] at hmn
    subst hmn
    exact c3
  · have hms' : (S.nodes.filter (isLabeledNamed lb nm)).isEmpty = false := by
      cases hq : (S.nodes.filter (isLabeledNamed lb nm)).isEmpty
      · rfl
      · exact absurd hq hms
    obtain ⟨c1, c2, c3, c4⟩ :=
      ensureLink_stable lb nm cprops link D hLn hLx hLd hLm S src hms'
    refine ⟨?_, ?_⟩
    · rw [c1]
      intro hnil
      rw [hnil] at hms'
      simp at hms'
    · intro mn hmn
      rw [c1] at hmn
      exact c4 mn hmn

/-- Every row of the per-employee fold ends ensured. -/
theorem fold_ensured (lb : NLabel) (nm : String) (D : GraphState → Nat → Nat → Prop)
    (body : GraphState → GNode → GraphState)
    (hbody_pres : ∀ h e, Pres h (body h e))
    (hbody_DP : ∀ (h : GraphState) (e : GNode) (s d : Nat), D h s d → D (body h e) s d)
    (hbody_est : ∀ h e, Ensured lb nm D (body h e) e.nid)
    (es : List GNode) (S : GraphState) :
    ∀ e ∈ es, Ensured lb nm D (es.foldl body S) e.nid := by
  induction es generalizing S with
  | nil =>
    intro e he
    exact absurd he (List.not_mem_nil e)
  | cons e0 rest ih =>
    intro e he
    rcases List.mem_cons.mp he with h0 | h0
    · subst h0
      simp only [List.foldl_cons]
      exact ensured_fold_pres lb nm D body hbody_pres hbody_DP rest (body S e) e.nid
        (hbody_est S e)
    · simp only [List.foldl_cons]
      exact ih (body S e0) e h0

/-! ### Per-body preservation and establishment -/

theorem edge_hDE (t : EType) : ∀ g1 g2 : GraphState, g1.edges = g2.edges →
    ∀ s d, edgeExists g1 s d t = true → edgeExists g2 s d t = true := by
  intro g1 g2 hE s d hh
  show (g2.edges.any fun e => e.src == s && e.dst == d && e.typ == t) = true
  rw [← hE]
  exact hh

theorem skill_hDE (ty : String) : ∀ g1 g2 : GraphState, g1.edges = g2.edges →
    ∀ s d, skillEdgeExists g1 s d ty = true → skillEdgeExists g2 s d ty = true := by
  intro g1 g2 hE s d hh
  show (g2.edges.any fun e => e.src == s && e.dst == d && e.typ == EType.hasSkill &&
    getP e.props "type" == some ty) = true
  rw [← hE]
  exact hh

theorem isLabeledNamed_name_node (lb : NLabel) (nm : String) (k : Nat) :
    isLabeledNamed lb nm ⟨k, lb, [("name", nm)]⟩ = true := by
  simp [isLabeledNamed, getP]

theorem pres_teamLinkBody (t : String) (h : GraphState) (e : GNode) :
    Pres h (teamLinkBody t h e) := by
  unfold teamLinkBody
  exact pres_ensureLink _ _ _ _ (fun h2 s d => pres_mergeEdge h2 s d EType.worksIn)
    (by simp [getP]) (fun k => Or.inl (by simp)) h e.nid

theorem pres_refFoldBody (ety : EType) (m sid : String) (hsid : hasStubStart sid = true)
    (h : GraphState) (e : GNode) : Pres h (refFoldBody ety m sid h e) := by
  unfold refFoldBody
  refine pres_ensureLink _ _ _ _ (fun h2 s d => pres_mergeEdge h2 s d ety)
    (by simp [getP]) ?_ h e.nid
  intro k
  exact Or.inr ⟨sid, by simp [empIdOf, getP], hsid⟩

theorem pres_projLinkBody (x : Option String) (p : String) (h : GraphState) (e : GNode) :
    Pres h (projLinkBody x p h e) := by
  unfold projLinkBody
  exact pres_ensureLink _ _ _ _ (fun h2 s d => pres_worksOnUpd h2 s d x)
    (by simp [getP]) (fun k => Or.inl (by simp)) h e.nid

theorem pres_mergeSkillFor (g : GraphState) (enid : Nat) (p ty : String) :
    Pres g (mergeSkillFor g enid p ty) := by
  unfold mergeSkillFor
  exact pres_ensureLink _ _ _ _ (fun h2 s d => pres_mergeSkillEdge h2 s d ty)
    (by simp [getP]) (fun k => Or.inl (by simp)) g enid

theorem pres_skillBody (ps qs : Option String) (h : GraphState) (e : GNode) :
    Pres h (skillBody ps qs h e) := by
  unfold skillBody
  have h1 : Pres h
      (match ps with
       | some p => mergeSkillFor h e.nid p "primary"
       | none => h) := by
    cases ps with
    | none => exact pres_refl h
    | some p => exact pres_mergeSkillFor h e.nid p "primary"
  refine pres_trans h1 ?_
  cases qs with
  | none => exact pres_refl _
  | some q => exact pres_mergeSkillFor _ e.nid q "secondary"

theorem teamLinkBody_ensured (t : String) (h : GraphState) (e : GNode) :
    Ensured NLabel.team t (fun h2 s d => edgeExists h2 s d EType.worksIn = true)
      (teamLinkBody t h e) e.nid := by
  unfold teamLinkBody
  exact ensureLink_ensured NLabel.team t [("name", t)] _ _
    (edge_hDE EType.worksIn)
    (fun h2 s d => mergeEdge_nodes h2 s d EType.worksIn)
    (fun h2 s d => mergeEdge_nextId h2 s d EType.worksIn)
    (fun h2 s d => edgeExists_mergeEdge_self h2 s d EType.worksIn)
    (fun h2 s d s' d' hh =>
      edgeExists_mergeEdge_mono h2 s d EType.worksIn s' d' EType.worksIn hh)
    (fun k => isLabeledNamed_name_node NLabel.team t k)
    h e.nid

theorem refFoldBody_ensured (ety : EType) (m sid : String) (h : GraphState) (e : GNode) :
    Ensured NLabel.employee m (fun h2 s d => edgeExists h2 s d ety = true)
      (refFoldBody ety m sid h e) e.nid := by
  unfold refFoldBody
  exact ensureLink_ensured NLabel.employee m [("name", m), ("empId", sid)] _ _
    (edge_hDE ety)
    (fun h2 s d => mergeEdge_nodes h2 s d ety)
    (fun h2 s d => mergeEdge_nextId h2 s d ety)
    (fun h2 s d => edgeExists_mergeEdge_self h2 s d ety)
    (fun h2 s d s' d' hh => edgeExists_mergeEdge_mono h2 s d ety s' d' ety hh)
    (fun k => stub_matches k m sid)
    h e.nid

theorem mergeSkillFor_ensured (g : GraphState) (enid : Nat) (p ty : String) :
    Ensured NLabel.skill p (fun h2 s d => skillEdgeExists h2 s d ty = true)
      (mergeSkillFor g enid p ty) enid := by
  unfold mergeSkillFor
  exact ensureLink_ensured NLabel.skill p [("name", p)] _ _
    (skill_hDE ty)
    (fun h2 s d => mergeSkillEdge_nodes h2 s d ty)
    (fun h2 s d => mergeSkillEdge_nextId h2 s d ty)
    (fun h2 s d => skillEdgeExists_mergeSkillEdge_self h2 s d ty)
    (fun h2 s d s' d' hh => skillEdgeExists_mergeSkillEdge_mono h2 s d ty s' d' ty hh)
    (fun k => isLabeledNamed_name_node NLabel.skill p k)
    g enid

theorem projLinkBody_ensured (x : Option String) (p : String) (h : GraphState) (e : GNode) :
    Ensured NLabel.project p (DWorks x) (projLinkBody x p h e) e.nid := by
  unfold projLinkBody
  exact ensureLink_ensured NLabel.project p [("name", p)] _ _
    (dworks_edges x)
    (fun h2 s d => worksOnUpd_nodes h2 s d x)
    (fun h2 s d => worksOnUpd_nextId h2 s d x)
    (fun h2 s d => dworks_worksOnUpd_self h2 s d x)
    (fun h2 s d s' d' hh => dworks_pres x (pres_worksOnUpd h2 s' d' x) s d hh)
    (fun k => isLabeledNamed_name_node NLabel.project p k)
    h e.nid

theorem skillBody_ensured_primary (p : String) (qs : Option String)
    (h : GraphState) (e : GNode) :
    Ensured NLabel.skill p (fun h2 s d => skillEdgeExists h2 s d "primary" = true)
      (skillBody (some p) qs h e) e.nid := by
  unfold skillBody
  cases qs with
  | none => exact mergeSkillFor_ensured h e.nid p "primary"
  | some q =>
    refine ensured_pres _ _ _ (pres_mergeSkillFor _ e.nid q "secondary") ?_ e.nid
      (mergeSkillFor_ensured h e.nid p "primary")
    intro s d hd
    exact (pres_mergeSkillFor _ e.nid q "secondary").2.2.2.2.1 s d "primary" hd

theorem skillBody_ensured_secondary (ps : Option String) (q : String)
    (h : GraphState) (e : GNode) :
    Ensured NLabel.skill q (fun h2 s d => skillEdgeExists h2 s d "secondary" = true)
      (skillBody ps (some q) h e) e.nid := by
  unfold skillBody
  cases ps with
  | none => exact mergeSkillFor_ensured h e.nid q "secondary"
  | some p => exact mergeSkillFor_ensured _ e.nid q "secondary"

/-! ### Phase invariants -/

/-- A record's obligation for one `ensureLink` family is already met. -/
def PInv (lb : NLabel) (nm : String) (D : GraphState → Nat → Nat → Prop)
    (eid : String) (S : GraphState) : Prop :=
  empMatches S eid = [] ∨
    (S.nodes.filter (isLabeledNamed lb nm) ≠ [] ∧
     ∀ e ∈ empMatches S eid, ∀ mn ∈ S.nodes.filter (isLabeledNamed lb nm),
       D S e.nid mn.nid)

theorem pinv_pres (lb : NLabel) (nm : String) (D : GraphState → Nat → Nat → Prop)
    (eid : String) {S S' : GraphState} (hp : Pres S S')
    (hstub : hasStubStart eid = false)
    (hDP : ∀ s d, D S s d → D S' s d) :
    PInv lb nm D eid S → PInv lb nm D eid S' := by
  intro h
  rcases h with he | ⟨hne, hall⟩
  · left
    rw [hp.2.2.1 eid hstub, he]
  · right
    refine ⟨?_, ?_⟩
    · rw [hp.2.1 lb nm hne]
      exact hne
    · intro e hee mn hmn
      rw [hp.2.2.1 eid hstub] at hee
      rw [hp.2.1 lb nm hne] at hmn
      exact hDP _ _ (hall e hee mn hmn)

/-- The per-employee fold of any self-ensuring body meets its obligation. -/
theorem fold_establish (lb : NLabel) (nm : String) (D : GraphState → Nat → Nat → Prop)
    (body : GraphState → GNode → GraphState)
    (hbody_pres : ∀ h e, Pres h (body h e))
    (hbody_DP : ∀ (h : GraphState) (e : GNode) (s d : Nat), D h s d → D (body h e) s d)
    (hbody_est : ∀ h e, Ensured lb nm D (body h e) e.nid)
    (eid : String) (hstub : hasStubStart eid = false) (S : GraphState) :
    PInv lb nm D eid ((empMatches S eid).foldl body S) := by
  cases hes : empMatches S eid with
  | nil =>
    left
    exact hes
  | cons e0 rest =>
    have hpresF : Pres S ((empMatches S eid).foldl body S) :=
      pres_foldl body hbody_pres S _
    have hens := fold_ensured lb nm D body hbody_pres hbody_DP hbody_est (empMatches S eid) S
    rw [hes] at hpresF hens
    right
    refine ⟨(hens e0 (List.mem_cons_self _ _)).1, ?_⟩
    intro e hee mn hmn
    rw [hpresF.2.2.1 eid hstub, hes] at hee
    exact (hens e hee).2 mn hmn

/-! ### Step shapes -/

theorem step2_eq (S : GraphState) (r : Rec) (eid t : String)
    (hid : r.empId = some eid) (ht : r.team = some t) (hne : t ≠ "") :
    step2 S r = (empMatches S eid).foldl (teamLinkBody t) S := by
  unfold step2
  simp only [hid, ht]
  rw [if_neg hne]

theorem stepRef_eq (mk : String → String → String) (ety : EType)
    (refOf : Rec → Option String) (S : GraphState) (r : Rec) (eid m : String)
    (hid : r.empId = some eid) (href : refOf r = some m) (hm : m ≠ "") :
    stepRef mk ety refOf S r =
      (empMatches S eid).foldl (refFoldBody ety m (mk eid m)) S := by
  unfold stepRef
  simp only [hid, href]
  rw [if_neg hm]

theorem step4_eq (S : GraphState) (r : Rec) (eid : String)
    (hid : r.empId = some eid) :
    step4 S r = (empMatches S eid).foldl (skillBody r.primarySkill r.secondarySkill) S := by
  unfold step4
  simp only [hid]

theorem step5_eq (S : GraphState) (r : Rec) (eid p : String)
    (hid : r.empId = some eid) (hp : r.project = some p) (hne : p ≠ "") :
    step5 S r = (empMatches S eid).foldl (projLinkBody r.doj p) S := by
  unfold step5
  simp only [hid, hp]
  rw [if_neg hne]

/-! ### The five invariants -/

def P2 (r : Rec) (S : GraphState) : Prop :=
  ∀ eid t, r.empId = some eid → r.team = some t → t ≠ "" →
    PInv NLabel.team t (fun h s d => edgeExists h s d EType.worksIn = true) eid S

def P3 (refOf : Rec → Option String) (ety : EType) (r : Rec) (S : GraphState) : Prop :=
  ∀ eid m, r.empId = some eid → refOf r = some m → m ≠ "" →
    PInv NLabel.employee m (fun h s d => edgeExists h s d ety = true) eid S

def P4 (r : Rec) (S : GraphState) : Prop :=
  ∀ eid, r.empId = some eid →
    (∀ p, r.primarySkill = some p →
      PInv NLabel.skill p (fun h s d => skillEdgeExists h s d "primary" = true) eid S) ∧
    (∀ q, r.secondarySkill = some q →
      PInv NLabel.skill q (fun h s d => skillEdgeExists h s d "secondary" = true) eid S)

def P5 (r : Rec) (S : GraphState) : Prop :=
  ∀ eid p, r.empId = some eid → r.project = some p → p ≠ "" →
    PInv NLabel.project p (DWorks r.doj) eid S

/-! ### Step identities under the invariants -/

theorem step2_id (S : GraphState) (r : Rec) (h : P2 r S) : step2 S r = S := by
  unfold step2
  cases hid : r.empId with
  | none => rfl
  | some eid =>
    cases ht : r.team with
    | none => rfl
    | some t =>
      by_cases hne : t = ""
      · show (if t = "" then S else (empMatches S eid).foldl (teamLinkBody t) S) = S
        rw [if_pos hne]
      · show (if t = "" then S else (empMatches S eid).foldl (teamLinkBody t) S) = S
        rw [if_neg hne]
        rcases h eid t hid ht hne with he | ⟨hfne, hall⟩
        · rw [he]
          rfl
        · apply foldl_fixed
          intro e he2
          show teamLinkBody t S e = S
          unfold teamLinkBody
          exact ensureLink_id NLabel.team t [("name", t)] _ _
            (fun h2 s d hd => mergeEdge_id h2 s d EType.worksIn hd)
            S e.nid (ne_nil_isEmpty_false _ hfne) (hall e he2)

theorem stepRef_id (mk : String → String → String) (ety : EType)
    (refOf : Rec → Option String) (S : GraphState) (r : Rec)
    (h : P3 refOf ety r S) : stepRef mk ety refOf S r = S := by
  unfold stepRef
  cases hid : r.empId with
  | none => rfl
  | some eid =>
    cases href : refOf r with
    | none => rfl
    | some m =>
      by_cases hm : m = ""
      · show (if m = "" then S
          else (empMatches S eid).foldl (refFoldBody ety m (mk eid m)) S) = S
        rw [if_pos hm]
      · show (if m = "" then S
          else (empMatches S eid).foldl (refFoldBody ety m (mk eid m)) S) = S
        rw [if_neg hm]
        rcases h eid m hid href hm with he | ⟨hfne, hall⟩
        · rw [he]
          rfl
        · apply foldl_fixed
          intro e he2
          show refFoldBody ety m (mk eid m) S e = S
          unfold refFoldBody
          exact ensureLink_id NLabel.employee m [("name", m), ("empId", mk eid m)] _ _
            (fun h2 s d hd => mergeEdge_id h2 s d ety hd)
            S e.nid (ne_nil_isEmpty_false _ hfne) (hall e he2)

theorem step4_id (S : GraphState) (r : Rec) (h : P4 r S) : step4 S r = S := by
  unfold step4
  cases hid : r.empId with
  | none => rfl
  | some eid =>
    obtain ⟨hP, hQ⟩ := h eid hid
    show (empMatches S eid).foldl (skillBody r.primarySkill r.secondarySkill) S = S
    apply foldl_fixed
    intro e he2
    show skillBody r.primarySkill r.secondarySkill S e = S
    unfold skillBody
    have h1 : (match r.primarySkill with
        | some p => mergeSkillFor S e.nid p "primary"
        | none => S) = S := by
      cases hp : r.primarySkill with
      | none => rfl
      | some p =>
        unfold mergeSkillFor
        rcases hP p hp with he | ⟨hfne, hall⟩
        · rw [he] at he2
          exact absurd he2 (List.not_mem_nil e)
        · exact ensureLink_id NLabel.skill p [("name", p)] _ _
            (fun h2 s d hd => mergeSkillEdge_id h2 s d "primary" hd)
            S e.nid (ne_nil_isEmpty_false _ hfne) (hall e he2)
    rw [h1]
    cases hq : r.secondarySkill with
    | none => rfl
    | some q =>
      unfold mergeSkillFor
      rcases hQ q hq with he | ⟨hfne, hall⟩
      · rw [he] at he2
        exact absurd he2 (List.not_mem_nil e)
      · exact ensureLink_id NLabel.skill q [("name", q)] _ _
          (fun h2 s d hd => mergeSkillEdge_id h2 s d "secondary" hd)
          S e.nid (ne_nil_isEmpty_false _ hfne) (hall e he2)

theorem step5_id (S : GraphState) (r : Rec) (h : P5 r S) : step5 S r = S := by
  unfold step5
  cases hid : r.empId with
  | none => rfl
  | some eid =>
    cases hpj : r.project with
    | none => rfl
    | some p =>
      by_cases hne : p = ""
      · show (if p = "" then S else (empMatches S eid).foldl (projLinkBody r.doj p) S) = S
        rw [if_pos hne]
      · show (if p = "" then S else (empMatches S eid).foldl (projLinkBody r.doj p) S) = S
        rw [if_neg hne]
        rcases h eid p hid hpj hne with he | ⟨hfne, hall⟩
        · rw [he]
          rfl
        · apply foldl_fixed
          intro e he2
          show projLinkBody r.doj p S e = S
          unfold projLinkBody
          exact ensureLink_id NLabel.project p [("name", p)] _ _
            (fun h2 s d hd => worksOnUpd_id h2 s d r.doj hd)
            S e.nid (ne_nil_isEmpty_false _ hfne) (hall e he2)

/-! ### Step establishment and invariant preservation -/

theorem step2_establish (S : GraphState) (r : Rec) (hgood : goodRec r = true) :
    P2 r (step2 S r) := by
  intro eid t hid ht hne
  rw [step2_eq S r eid t hid ht hne]
  exact fold_establish NLabel.team t _ (teamLinkBody t)
    (pres_teamLinkBody t)
    (fun h e s d hd => (pres_teamLinkBody t h e).2.2.2.1 s d EType.worksIn hd)
    (teamLinkBody_ensured t)
    eid ((goodRec_parts r hgood).2.2.2 eid hid) S

theorem stepRef_establish (mk : String → String → String) (ety : EType)
    (refOf : Rec → Option String)
    (hmk : ∀ e m, hasStubStart (mk e m) = true)
    (S : GraphState) (r : Rec) (hgood : goodRec r = true) :
    P3 refOf ety r (stepRef mk ety refOf S r) := by
  intro eid m hid href hm
  rw [stepRef_eq mk ety refOf S r eid m hid href hm]
  exact fold_establish NLabel.employee m _ (refFoldBody ety m (mk eid m))
    (pres_refFoldBody ety m (mk eid m) (hmk eid m))
    (fun h e s d hd =>
      (pres_refFoldBody ety m (mk eid m) (hmk eid m) h e).2.2.2.1 s d ety hd)
    (refFoldBody_ensured ety m (mk eid m))
    eid ((goodRec_parts r hgood).2.2.2 eid hid) S

theorem step4_establish (S : GraphState) (r : Rec) (hgood : goodRec r = true) :
    P4 r (step4 S r) := by
  intro eid hid
  rw [step4_eq S r eid hid]
  constructor
  · intro p hp
    rw [hp]
    exact fold_establish NLabel.skill p _ (skillBody (some p) r.secondarySkill)
      (pres_skillBody (some p) r.secondarySkill)
      (fun h e s d hd =>
        (pres_skillBody (some p) r.secondarySkill h e).2.2.2.2.1 s d "primary" hd)
      (skillBody_ensured_primary p r.secondarySkill)
      eid ((goodRec_parts r hgood).2.2.2 eid hid) S
  · intro q hq
    rw [hq]
    exact fold_establish NLabel.skill q _ (skillBody r.primarySkill (some q))
      (pres_skillBody r.primarySkill (some q))
      (fun h e s d hd =>
        (pres_skillBody r.primarySkill (some q) h e).2.2.2.2.1 s d "secondary" hd)
      (skillBody_ensured_secondary r.primarySkill q)
      eid ((goodRec_parts r hgood).2.2.2 eid hid) S

theorem step5_establish (S : GraphState) (r : Rec) (hgood : goodRec r = true) :
    P5 r (step5 S r) := by
  intro eid p hid hpj hne
  rw [step5_eq S r eid p hid hpj hne]
  exact fold_establish NLabel.project p _ (projLinkBody r.doj p)
    (pres_projLinkBody r.doj p)
    (fun h e s d hd => dworks_pres r.doj (pres_projLinkBody r.doj p h e) s d hd)
    (projLinkBody_ensured r.doj p)
    eid ((goodRec_parts r hgood).2.2.2 eid hid) S

theorem P2_pres (r : Rec) (S S' : GraphState) (hgood : goodRec r = true)
    (hp : Pres S S') : P2 r S → P2 r S' := by
  intro h eid t hid ht hne
  exact pinv_pres NLabel.team t _ eid hp ((goodRec_parts r hgood).2.2.2 eid hid)
    (fun s d hd => hp.2.2.2.1 s d EType.worksIn hd) (h eid t hid ht hne)

theorem P3_pres (refOf : Rec → Option String) (ety : EType) (r : Rec)
    (S S' : GraphState) (hgood : goodRec r = true)
    (hp : Pres S S') : P3 refOf ety r S → P3 refOf ety r S' := by
  intro h eid m hid href hm
  exact pinv_pres NLabel.employee m _ eid hp ((goodRec_parts r hgood).2.2.2 eid hid)
    (fun s d hd => hp.2.2.2.1 s d ety hd) (h eid m hid href hm)

theorem P4_pres (r : Rec) (S S' : GraphState) (hgood : goodRec r = true)
    (hp : Pres S S') : P4 r S → P4 r S' := by
  intro h eid hid
  obtain ⟨hP, hQ⟩ := h eid hid
  constructor
  · intro p hpp
    exact pinv_pres NLabel.skill p _ eid hp ((goodRec_parts r hgood).2.2.2 eid hid)
      (fun s d hd => hp.2.2.2.2.1 s d "primary" hd) (hP p hpp)
  · intro q hq
    exact pinv_pres NLabel.skill q _ eid hp ((goodRec_parts r hgood).2.2.2 eid hid)
      (fun s d hd => hp.2.2.2.2.1 s d "secondary" hd) (hQ q hq)

theorem P5_pres (r : Rec) (S S' : GraphState) (hgood : goodRec r = true)
    (hp : Pres S S') : P5 r S → P5 r S' := by
  intro h eid p hid hpj hne
  exact pinv_pres NLabel.project p _ eid hp ((goodRec_parts r hgood).2.2.2 eid hid)
    (fun s d hd => dworks_pres r.doj hp s d hd) (h eid p hid hpj hne)

/-- A phase establishes its invariant for every record of the batch. -/
theorem phase_establish (P : Rec → GraphState → Prop)
    (step : GraphState → Rec → GraphState)
    (hstep_pres : ∀ h r', Pres h (step h r'))
    (hstep_est : ∀ S r, goodRec r = true → P r (step S r))
    (hP_pres : ∀ (r : Rec) (S S' : GraphState), goodRec r = true →
      Pres S S' → P r S → P r S')
    (rs : List Rec) (hgood : ∀ r ∈ rs, goodRec r = true) (S : GraphState) :
    ∀ r ∈ rs, P r (rs.foldl step S) := by
  induction rs generalizing S with
  | nil =>
    intro r hr
    exact absurd hr (List.not_mem_nil r)
  | cons r0 rest ih =>
    intro r hr
    simp only [List.foldl_cons]
    rcases List.mem_cons.mp hr with h0 | h0
    · subst h0
      exact hP_pres r _ _ (hgood r (List.mem_cons_self _ _))
        (pres_foldl step hstep_pres (step S r) rest)
        (hstep_est S r (hgood r (List.mem_cons_self _ _)))
    · exact ih (fun x hx => hgood x (List.mem_cons_of_mem _ hx)) (step S r0) r h0

/-! ### Transferring the invariants across extensional equality -/

theorem isEmpWithId_equiv (eid : String) (n m : GNode) (h : NodeEquiv n m) :
    isEmpWithId eid n = isEmpWithId eid m := by
  obtain ⟨_, hlab, hprops⟩ := h
  unfold isEmpWithId
  rw [hlab, hprops "empId"]

theorem isLabeledNamed_equiv (lb : NLabel) (nm : String) (n m : GNode) (h : NodeEquiv n m) :
    isLabeledNamed lb nm n = isLabeledNamed lb nm m := by
  obtain ⟨_, hlab, hprops⟩ := h
  unfold isLabeledNamed
  rw [hlab, hprops "name"]

theorem forall2_filter_map_nid (p q : GNode → Bool) (l l' : List GNode)
    (hR : List.Forall₂ NodeEquiv l l')
    (hpq : ∀ n m, NodeEquiv n m → p n = q m) :
    (l.filter p).map GNode.nid = (l'.filter q).map GNode.nid := by
  induction hR with
  | nil => rfl
  | @cons a b l1 l2 hab ht ih =>
    rw [List.filter_cons, List.filter_cons]
    by_cases hpa : p a = true
    · rw [if_pos hpa, if_pos (by rw [← hpq a b hab]; exact hpa)]
      simp only [List.map_cons]
      rw [ih, hab.1]
    · rw [if_neg hpa, if_neg (by rw [← hpq a b hab]; exact hpa)]
      exact ih

theorem pinv_transfer (lb : NLabel) (nm : String) (D : GraphState → Nat → Nat → Prop)
    (eid : String) (X G : GraphState)
    (hF : List.Forall₂ NodeEquiv X.nodes G.nodes)
    (hDX : ∀ s d, D G s d → D X s d) :
    PInv lb nm D eid G → PInv lb nm D eid X := by
  have hemp : (empMatches X eid).map GNode.nid = (empMatches G eid).map GNode.nid :=
    forall2_filter_map_nid _ _ _ _ hF (fun n m hnm => isEmpWithId_equiv eid n m hnm)
  have hnamed : (X.nodes.filter (isLabeledNamed lb nm)).map GNode.nid =
      (G.nodes.filter (isLabeledNamed lb nm)).map GNode.nid :=
    forall2_filter_map_nid _ _ _ _ hF (fun n m hnm => isLabeledNamed_equiv lb nm n m hnm)
  intro h
  rcases h with he | ⟨hne, hall⟩
  · left
    have h2 : (empMatches X eid).map GNode.nid = [] := by
      rw [hemp, he]
      rfl
    exact List.map_eq_nil_iff.mp h2
  · right
    constructor
    · intro hX
      apply hne
      have h2 := hnamed
      rw [hX] at h2
      simp only [List.map_nil] at h2
      exact List.map_eq_nil_iff.mp h2.symm
    · intro e hee mn hmn
      have he' : e.nid ∈ (empMatches G eid).map GNode.nid := by
        rw [← hemp]
        exact List.mem_map_of_mem _ hee
      have hmn' : mn.nid ∈ (G.nodes.filter (isLabeledNamed lb nm)).map GNode.nid := by
        rw [← hnamed]
        exact List.mem_map_of_mem _ hmn
      obtain ⟨e2, he2, he2n⟩ := List.mem_map.mp he'
      obtain ⟨mn2, hmn2, hmn2n⟩ := List.mem_map.mp hmn'
      have hd := hall e2 he2 mn2 hmn2
      rw [he2n, hmn2n] at hd
      exact hDX _ _ hd

theorem P2_transfer (r : Rec) (X G : GraphState) (hS : StateEq X G) :
    P2 r G → P2 r X := by
  intro h eid t hid ht hne
  exact pinv_transfer NLabel.team t _ eid X G hS.1
    (fun s d hd => edge_hDE EType.worksIn G X hS.2.1.symm s d hd)
    (h eid t hid ht hne)

theorem P3_transfer (refOf : Rec → Option String) (ety : EType) (r : Rec)
    (X G : GraphState) (hS : StateEq X G) :
    P3 refOf ety r G → P3 refOf ety r X := by
  intro h eid m hid href hm
  exact pinv_transfer NLabel.employee m _ eid X G hS.1
    (fun s d hd => edge_hDE ety G X hS.2.1.symm s d hd)
    (h eid m hid href hm)

theorem P4_transfer (r : Rec) (X G : GraphState) (hS : StateEq X G) :
    P4 r G → P4 r X := by
  intro h eid hid
  obtain ⟨hP, hQ⟩ := h eid hid
  constructor
  · intro p hpp
    exact pinv_transfer NLabel.skill p _ eid X G hS.1
      (fun s d hd => skill_hDE "primary" G X hS.2.1.symm s d hd) (hP p hpp)
  · intro q hq
    exact pinv_transfer NLabel.skill q _ eid X G hS.1
      (fun s d hd => skill_hDE "secondary" G X hS.2.1.symm s d hd) (hQ q hq)

theorem P5_transfer (r : Rec) (X G : GraphState) (hS : StateEq X G) :
    P5 r G → P5 r X := by
  intro h eid p hid hpj hne
  exact pinv_transfer NLabel.project p _ eid X G hS.1
    (fun s d hd => dworks_edges r.doj G X hS.2.1.symm s d hd)
    (h eid p hid hpj hne)

/-! ### The full pass and its fixed point -/

/-- Phases 2-5 of one `upsert` pass. -/
def pass25 (g : GraphState) (rs : List Rec) : GraphState :=
  phase5 (phase4 (phase3L (phase3M (phase2 g rs) rs) rs) rs) rs

theorem upsert_eq (g : GraphState) (rs : List Rec) (hrs : ¬ rs.isEmpty = true) :
    upsert g rs = pass25 (phase1 g rs) rs := by
  unfold upsert pass25
  rw [if_neg hrs]

/-- Each batch record's five phase obligations hold at the end of a pass. -/
theorem pass25_invariants (G1 : GraphState) (rs : List Rec)
    (hgood : ∀ r ∈ rs, goodRec r = true) :
    ∀ r ∈ rs,
      P2 r (pass25 G1 rs) ∧
      P3 (fun x => x.managerName) EType.reportsTo r (pass25 G1 rs) ∧
      P3 (fun x => x.leadName) EType.leadReporting r (pass25 G1 rs) ∧
      P4 r (pass25 G1 rs) ∧
      P5 r (pass25 G1 rs) := by
  intro r hr
  have hg : goodRec r = true := hgood r hr
  refine ⟨?_, ?_, ?_, ?_, ?_⟩
  · have h2 : P2 r (phase2 G1 rs) :=
      phase_establish P2 step2 pres_step2 step2_establish P2_pres rs hgood G1 r hr
    have hp : Pres (phase2 G1 rs) (pass25 G1 rs) := by
      unfold pass25
      exact pres_trans (pres_phase3M _ rs) (pres_trans (pres_phase3L _ rs)
        (pres_trans (pres_phase4 _ rs) (pres_phase5 _ rs)))
    exact P2_pres r _ _ hg hp h2
  · have h3 : P3 (fun x => x.managerName) EType.reportsTo r
        (phase3M (phase2 G1 rs) rs) :=
      phase_establish (P3 (fun x => x.managerName) EType.reportsTo) step3M
        (fun h r' =>
          pres_stepRef stubManagerId EType.reportsTo _ hasStubStart_stubManagerId h r')
        (fun S r' hg' =>
          stepRef_establish stubManagerId EType.reportsTo _
            hasStubStart_stubManagerId S r' hg')
        (fun r' S S' hg' hp' => P3_pres _ EType.reportsTo r' S S' hg' hp')
        rs hgood (phase2 G1 rs) r hr
    have hp : Pres (phase3M (phase2 G1 rs) rs) (pass25 G1 rs) := by
      unfold pass25
      exact pres_trans (pres_phase3L _ rs)
        (pres_trans (pres_phase4 _ rs) (pres_phase5 _ rs))
    exact P3_pres _ EType.reportsTo r _ _ hg hp h3
  · have h3 : P3 (fun x => x.leadName) EType.leadReporting r
        (phase3L (phase3M (phase2 G1 rs) rs) rs) :=
      phase_establish (P3 (fun x => x.leadName) EType.leadReporting) step3L
        (fun h r' =>
          pres_stepRef stubLeadId EType.leadReporting _ hasStubStart_stubLeadId h r')
        (fun S r' hg' =>
          stepRef_establish stubLeadId EType.leadReporting _
            hasStubStart_stubLeadId S r' hg')
        (fun r' S S' hg' hp' => P3_pres _ EType.leadReporting r' S S' hg' hp')
        rs hgood (phase3M (phase2 G1 rs) rs) r hr
    have hp : Pres (phase3L (phase3M (phase2 G1 rs) rs) rs) (pass25 G1 rs) := by
      unfold pass25
      exact pres_trans (pres_phase4 _ rs) (pres_phase5 _ rs)
    exact P3_pres _ EType.leadReporting r _ _ hg hp h3
  · have h4 : P4 r (phase4 (phase3L (phase3M (phase2 G1 rs) rs) rs) rs) :=
      phase_establish P4 step4 pres_step4 step4_establish P4_pres rs hgood _ r hr
    have hp : Pres (phase4 (phase3L (phase3M (phase2 G1 rs) rs) rs) rs) (pass25 G1 rs) := by
      unfold pass25
      exact pres_phase5 _ rs
    exact P4_pres r _ _ hg hp h4
  · exact phase_establish P5 step5 pres_step5 step5_establish P5_pres rs hgood
      (phase4 (phase3L (phase3M (phase2 G1 rs) rs) rs) rs) r hr

/-- A state meeting all five obligations is a literal fixed point of
    phases 2-5. -/
theorem pass25_id (X : GraphState) (rs : List Rec)
    (h2 : ∀ r ∈ rs, P2 r X)
    (h3m : ∀ r ∈ rs, P3 (fun x => x.managerName) EType.reportsTo r X)
    (h3l : ∀ r ∈ rs, P3 (fun x => x.leadName) EType.leadReporting r X)
    (h4 : ∀ r ∈ rs, P4 r X)
    (h5 : ∀ r ∈ rs, P5 r X) :
    pass25 X rs = X := by
  unfold pass25
  have e2 : phase2 X rs = X :=
    foldl_fixed step2 X rs (fun r hr => step2_id X r (h2 r hr))
  rw [e2]
  have e3 : phase3M X rs = X :=
    foldl_fixed step3M X rs
      (fun r hr => stepRef_id stubManagerId EType.reportsTo _ X r (h3m r hr))
  rw [e3]
  have e4 : phase3L X rs = X :=
    foldl_fixed step3L X rs
      (fun r hr => stepRef_id stubLeadId EType.leadReporting _ X r (h3l r hr))
  rw [e4]
  have e5 : phase4 X rs = X :=
    foldl_fixed step4 X rs (fun r hr => step4_id X r (h4 r hr))
  rw [e5]
  exact foldl_fixed step5 X rs (fun r hr => step5_id X r (h5 r hr))

/-- A second `upsert` of the same canonical batch is extensionally the
    identity on the state left by the first. -/
theorem upsert_stateEq (g : GraphState) (rs : List Rec)
    (hgood : ∀ r ∈ rs, goodRec r = true) :
    StateEq (upsert (upsert g rs) rs) (upsert g rs) := by
  by_cases hrs : rs.isEmpty = true
  · have h1 : ∀ G : GraphState, upsert G rs = G := by
      intro G
      unfold upsert
      rw [if_pos hrs]
    rw [h1 (upsert g rs)]
    exact stateEq_refl _
  · have hext : NodesExtend (phase1 g rs) (upsert g rs) := by
      rw [upsert_eq g rs hrs]
      exact nodesExtend_phases25 (phase1 g rs) rs
    have habs : StateEq (phase1 (upsert g rs) rs) (upsert g rs) :=
      phase1_absorb g (upsert g rs) rs hgood hext
    have hinv := pass25_invariants (phase1 g rs) rs hgood
    rw [← upsert_eq g rs hrs] at hinv
    have hid : pass25 (phase1 (upsert g rs) rs) rs = phase1 (upsert g rs) rs := by
      apply pass25_id
      · intro r hr
        exact P2_transfer r _ _ habs ((hinv r hr).1)
      · intro r hr
        exact P3_transfer _ EType.reportsTo r _ _ habs ((hinv r hr).2.1)
      · intro r hr
        exact P3_transfer _ EType.leadReporting r _ _ habs ((hinv r hr).2.2.1)
      · intro r hr
        exact P4_transfer r _ _ habs ((hinv r hr).2.2.2.1)
      · intro r hr
        exact P5_transfer r _ _ habs ((hinv r hr).2.2.2.2)
    rw [upsert_eq (upsert g rs) rs hrs, hid]
    exact habs

/-- CLAIM C1 — applying the upsert engine twice with the same batch of
    canonical records (id and name present, no passthrough key colliding with
    `empId`, and ids not themselves shaped like synthetic stub ids, which is
    what `build_records` emits) yields the same graph state as applying it
    once: the second application creates no node (the node list keeps its
    length) and no edge (the edge lists are identical, so no duplicate
    REPORTS_TO / LEAD_REPORTING / HAS_SKILL / WORKS_ON / WORKS_IN edge
    appears), and regresses no property (node by node, label, id and every
    property key read back unchanged). -/
theorem upsert_idempotent (g : GraphState) (rs : List Rec)
    (hgood : ∀ r ∈ rs, goodRec r = true) :
    (upsert (upsert g rs) rs).nodes.length = (upsert g rs).nodes.length ∧
    (upsert (upsert g rs) rs).edges = (upsert g rs).edges ∧
    (upsert (upsert g rs) rs).nextId = (upsert g rs).nextId ∧
    List.Forall₂ NodeEquiv (upsert (upsert g rs) rs).nodes (upsert g rs).nodes := by
  have h := upsert_stateEq g rs hgood
  exact ⟨h.1.length_eq, h.2.1, h.2.2, h.1⟩

def c1g : GraphState := emptyG

def c1rs : List Rec :=
  [{ empId := some "E1", name := some "Alice", gender := some "F",
     doj := some "2020-01-01", designation := some "Engineer",
     managerName := some "Bob", leadName := some "Carol",
     primarySkill := some "Go", secondarySkill := some "SQL",
     project := some "Apollo", team := some "Core" }]

/-- Witness for `upsert_idempotent`: a one-record batch exercising every
    phase, replayed over the empty store. -/
theorem upsert_idempotent_witness :
    (∀ r ∈ c1rs, goodRec r = true) ∧
    ((upsert (upsert c1g c1rs) c1rs).nodes.length = (upsert c1g c1rs).nodes.length ∧
     (upsert (upsert c1g c1rs) c1rs).edges = (upsert c1g c1rs).edges ∧
     (upsert (upsert c1g c1rs) c1rs).nextId = (upsert c1g c1rs).nextId ∧
     List.Forall₂ NodeEquiv (upsert (upsert c1g c1rs) c1rs).nodes
       (upsert c1g c1rs).nodes) :=
  ⟨by decide, upsert_idempotent c1g c1rs (by decide)⟩

end EmpKB
